import Mathlib

/-!
# TheSu-to-DOT : verification of the graph construction and rewriting pipeline

This file gives a shallow embedding, in Lean 4, of the parts of the
TheSu-to-DOT code base that the specification's claims are about:

* the collision-avoiding pseudo-node id generators (`src/dot/pseudo_nodes.py`)
  together with the emission discipline of the lowering stage
  (`src/dot/support.py`, `src/dot/thesis.py`);
* the graph rewriting passes over the emitted DOT text:
  edge validation / redirection (`src/dot/postprocess/edge_validation.py`),
  exclusion-driven connectivity pruning
  (`src/dot/postprocess/filtered_pruning.py`),
  deduplication (`src/dot/postprocess/deduplication.py`);
* the global document filter toggles of `src/dot/orchestrator.py` and the
  positional phase-removal kernel of `src/config/filters.py`;
* the layout-feedback arrow direction corrector
  (`src/dot/postprocess/arrow_fixup.py`).

The Python passes treat the intermediate graph purely as text and re-parse it
with regular expressions at every pass.  The embedding mirrors that design at
the natural level of abstraction: a DOT file is a list of lines; a line is
either a node definition, an edge, a blank line, or any other text, which is
exactly the case split performed by the `node_def_pattern` / `edge_def_pattern`
regexes shared by the passes.  Strings, string concatenation and substring
tests are modelled exactly (Python's `x in s` becomes list-infix on the
character data).  Machine-independent data (ids, attribute strings) stay
strings; the BFS worklists of the pruning pass become fuel-indexed recursive
functions, with the fuel chosen large enough to be provably sufficient.
-/

namespace TheSu

/-- Python's substring test `pat in s`, on UTF-8 character data. -/
def strIn (pat s : String) : Bool :=
  decide (pat.data <:+: s.data)

/-- The quoted form `"{uid}"` used when scanning emitted DOT lines for an id. -/
def quoted (uid : String) : String :=
  "\"" ++ uid ++ "\""

theorem strIn_iff (pat s : String) : strIn pat s = true ↔ pat.data <:+: s.data := by
  simp [strIn]

/-! ## Facts about `Nat.repr`

The id generators embed a decimal disambiguator with Python's f-string
formatting, which the embedding renders with `Nat.repr`.  We prove that
decimal representations never contain a quote character and that they are
injective, which is what the collision-avoidance arguments need. -/

theorem digitChar_ne_quote (m : Nat) (hm : m < 16) :
    Nat.digitChar m ≠ '"' := by
  interval_cases m <;> decide

theorem quote_not_mem_toDigitsCore :
    ∀ (f n : Nat) (acc : List Char), '"' ∉ acc →
      '"' ∉ Nat.toDigitsCore 10 f n acc := by
  intro f
  induction f with
  | zero => intro n acc hacc; simpa [Nat.toDigitsCore] using hacc
  | succ f ih =>
      intro n acc hacc
      have hd : n % 10 < 16 := by
        have := Nat.mod_lt n (show 0 < 10 by omega)
        omega
      simp only [Nat.toDigitsCore]
      split
      · intro hmem
        rcases List.mem_cons.mp hmem with h | h
        · exact digitChar_ne_quote _ hd h.symm
        · exact hacc h
      · refine ih (n / 10) (Nat.digitChar (n % 10) :: acc) ?_
        intro hmem
        rcases List.mem_cons.mp hmem with h | h
        · exact digitChar_ne_quote _ hd h.symm
        · exact hacc h

theorem quote_not_mem_repr (n : Nat) : '"' ∉ (Nat.repr n).data := by
  have := quote_not_mem_toDigitsCore (n + 1) n [] (by simp)
  simpa [Nat.repr, Nat.toDigits] using this

/-- `Nat.toDigitsCore` agrees with Mathlib's `Nat.digits`, provided the fuel
dominates the number. -/
theorem toDigitsCore_eq_digits :
    ∀ (f n : Nat) (acc : List Char), 0 < n → n < f →
      Nat.toDigitsCore 10 f n acc =
        ((Nat.digits 10 n).map Nat.digitChar).reverse ++ acc := by
  intro f
  induction f with
  | zero => intro n acc hn hf; omega
  | succ f ih =>
      intro n acc hn hf
      simp only [Nat.toDigitsCore]
      have hdig : Nat.digits 10 n = n % 10 :: Nat.digits 10 (n / 10) :=
        Nat.digits_def' (by norm_num) hn
      split
      · rename_i hdiv
        rw [hdig, hdiv]
        simp
      · rename_i hdiv
        have hpos : 0 < n / 10 := Nat.pos_of_ne_zero hdiv
        have hlt : n / 10 < n := Nat.div_lt_self hn (by norm_num)
        rw [ih (n / 10) (Nat.digitChar (n % 10) :: acc) hpos (by omega), hdig]
        simp

theorem repr_pos_eq (n : Nat) (hn : 0 < n) :
    (Nat.repr n).data = ((Nat.digits 10 n).map Nat.digitChar).reverse := by
  have := toDigitsCore_eq_digits (n + 1) n [] hn (by omega)
  simp only [Nat.repr, Nat.toDigits]
  rw [this]
  simp only [List.append_nil]
  rfl

theorem digitChar_injOn {a b : Nat} (ha : a < 10) (hb : b < 10)
    (h : Nat.digitChar a = Nat.digitChar b) : a = b := by
  interval_cases a <;> interval_cases b <;> simp_all <;> revert h <;> decide

theorem map_digitChar_inj :
    ∀ (l₁ l₂ : List Nat), (∀ x ∈ l₁, x < 10) → (∀ x ∈ l₂, x < 10) →
      l₁.map Nat.digitChar = l₂.map Nat.digitChar → l₁ = l₂ := by
  intro l₁
  induction l₁ with
  | nil => intro l₂ _ _ h; cases l₂ <;> simp_all
  | cons a t ih =>
      intro l₂ h₁ h₂ h
      cases l₂ with
      | nil => simp_all
      | cons b t₂ =>
          simp only [List.map_cons, List.cons.injEq] at h
          have hab : a = b :=
            digitChar_injOn (h₁ a (by simp)) (h₂ b (by simp)) h.1
          have : t = t₂ :=
            ih t₂ (fun x hx => h₁ x (by simp [hx])) (fun x hx => h₂ x (by simp [hx])) h.2
          simp [hab, this]

theorem digits_ne_zero_singleton (n : Nat) (hn : 0 < n) :
    Nat.digits 10 n ≠ [0] := by
  intro hdig
  have h := Nat.ofDigits_digits 10 n
  rw [hdig] at h
  simp [Nat.ofDigits] at h
  omega

theorem repr_pos_ne_repr_zero (n : Nat) (hn : 0 < n) :
    (Nat.repr n).data ≠ (Nat.repr 0).data := by
  intro hdata
  rw [repr_pos_eq n hn] at hdata
  have h0 : (Nat.repr 0).data = ['0'] := by decide
  rw [h0] at hdata
  have hrev := congrArg List.reverse hdata
  simp only [List.reverse_reverse] at hrev
  have : Nat.digits 10 n = [0] := by
    have := map_digitChar_inj (Nat.digits 10 n) [0]
      (fun x hx => Nat.digits_lt_base (by norm_num) hx) (by simp)
      (by simpa using hrev)
    exact this
  exact digits_ne_zero_singleton n hn this

theorem repr_inj {m n : Nat} (h : Nat.repr m = Nat.repr n) : m = n := by
  have hdata : (Nat.repr m).data = (Nat.repr n).data := by rw [h]
  rcases Nat.eq_zero_or_pos m with hm | hm <;> rcases Nat.eq_zero_or_pos n with hn | hn
  · omega
  · exfalso
    subst hm
    exact repr_pos_ne_repr_zero n hn hdata.symm
  · exfalso
    subst hn
    exact repr_pos_ne_repr_zero m hm hdata
  · rw [repr_pos_eq m hm, repr_pos_eq n hn] at hdata
    have hrev := congrArg List.reverse hdata
    simp only [List.reverse_reverse] at hrev
    have := map_digitChar_inj (Nat.digits 10 m) (Nat.digits 10 n)
      (fun x hx => Nat.digits_lt_base (by norm_num) hx)
      (fun x hx => Nat.digits_lt_base (by norm_num) hx) hrev
    have hm' := Nat.ofDigits_digits 10 m
    have hn' := Nat.ofDigits_digits 10 n
    rw [← hm', ← hn', this]

end TheSu

namespace TheSu

/-! ## Pseudo-node id generation (`src/dot/pseudo_nodes.py`)

`pseudo_node_exists` scans the lines already committed to the output stream
for the quoted form of a candidate id.  Every generator either increments a
numeric disambiguator or appends an incrementing counter to a string seed
until no collision is found.  The Python `while` loops are embedded as the
fuel-indexed `incrementUntilFree`, and `collisionFuel` is proved large enough
for the loop never to be cut short. -/

/-- `pseudo_node_exists(written_lines, unique_id)`. -/
def pseudo_node_exists (written : List String) (unique_id : String) : Bool :=
  written.any fun line => strIn (quoted unique_id) line

/-- A Python argument that is either an `int` or a `str`
(the generators branch on `isinstance(suffix, str)` / `suffix.isdigit()`). -/
inductive PySuffix
  | num (n : Nat)
  | str (s : String)
deriving DecidableEq

/-- The common `while <collision>: <bump>; <rebuild>` loop of the generators:
return the first candidate, starting at index `k`, that `bad` rejects. -/
def incrementUntilFree (bad : String → Bool) (cand : Nat → String) : Nat → Nat → String
  | k, 0 => cand k
  | k, fuel + 1 => if bad (cand k) then incrementUntilFree bad cand (k + 1) fuel else cand k

/-- Every contiguous substring (infix) of every committed line. -/
def allInfixList (written : List String) : List (List Char) :=
  written.flatMap fun l => l.data.tails.flatMap List.inits

/-- Enough fuel that a strictly fresh candidate is provably reached. -/
def collisionFuel (written : List String) : Nat :=
  (allInfixList written).length + 1

theorem mem_allInfixList {written : List String} {pat : String}
    (h : (written.any fun l => strIn pat l) = true) :
    pat.data ∈ allInfixList written := by
  rcases List.any_eq_true.mp h with ⟨l, hl, hpat⟩
  have hinf : pat.data <:+: l.data := (strIn_iff pat l).mp hpat
  rcases List.infix_iff_prefix_suffix.mp hinf with ⟨t, hpre, hsuf⟩
  refine List.mem_flatMap.mpr ⟨l, hl, ?_⟩
  exact List.mem_flatMap.mpr ⟨t, (List.mem_tails t l.data).mpr hsuf,
    (List.mem_inits pat.data t).mpr hpre⟩

/-- Pigeonhole: an injective family of search patterns cannot collide with the
committed lines at every index below `collisionFuel`. -/
theorem exists_unmatched (written : List String) (pat : Nat → String)
    (hinj : Function.Injective pat) :
    ∃ j, j < collisionFuel written ∧ (written.any fun l => strIn (pat j) l) = false := by
  by_contra hcon
  push_neg at hcon
  have hbad : ∀ j < collisionFuel written, (written.any fun l => strIn (pat j) l) = true := by
    intro j hj
    have := hcon j hj
    revert this
    cases written.any fun l => strIn (pat j) l <;> simp
  have hmaps : ∀ j ∈ Finset.range (collisionFuel written),
      (pat j).data ∈ (allInfixList written).toFinset := by
    intro j hj
    exact List.mem_toFinset.mpr (mem_allInfixList (hbad j (Finset.mem_range.mp hj)))
  have hinj' : Set.InjOn (fun j => (pat j).data) ↑(Finset.range (collisionFuel written)) := by
    intro i _ j _ hij
    exact hinj (String.ext hij)
  have hcard := Finset.card_le_card_of_injOn (fun j => (pat j).data) hmaps hinj'
  rw [Finset.card_range] at hcard
  have hlen := List.toFinset_card_le (allInfixList written)
  simp only [collisionFuel] at hcard
  omega

/-- The loop returns the first non-colliding candidate, provided one exists
within the fuel. -/
theorem incrementUntilFree_spec (bad : String → Bool) (cand : Nat → String) :
    ∀ (fuel k : Nat), (∃ j, j < fuel ∧ bad (cand (k + j)) = false) →
      ∃ j, bad (cand (k + j)) = false ∧ (∀ i < j, bad (cand (k + i)) = true) ∧
        incrementUntilFree bad cand k fuel = cand (k + j) := by
  intro fuel
  induction fuel with
  | zero => intro k h; omega
  | succ fuel ih =>
      intro k hfree
      by_cases hk : bad (cand k) = true
      · have hshift : ∃ j, j < fuel ∧ bad (cand (k + 1 + j)) = false := by
          rcases hfree with ⟨j, hj, hb⟩
          cases j with
          | zero => simp only [Nat.add_zero] at hb; rw [hb] at hk; cases hk
          | succ j' =>
              refine ⟨j', by omega, ?_⟩
              have : k + 1 + j' = k + (j' + 1) := by omega
              rw [this]; exact hb
        rcases ih (k + 1) hshift with ⟨j, hb, hall, heq⟩
        refine ⟨j + 1, ?_, ?_, ?_⟩
        · have : k + (j + 1) = k + 1 + j := by omega
          rw [this]; exact hb
        · intro i hi
          cases i with
          | zero => simpa using hk
          | succ i' =>
              have : k + (i' + 1) = k + 1 + i' := by omega
              rw [this]; exact hall i' (by omega)
        · simp only [incrementUntilFree, hk, if_true]
          rw [heq]; congr 1; omega
      · refine ⟨0, ?_, by omega, ?_⟩
        · simpa using (Bool.not_eq_true _).mp hk
        · simp only [incrementUntilFree]
          rw [if_neg (by simpa using hk)]
          simp

theorem append_repr_inj (p s : String) :
    Function.Injective (fun k => p ++ Nat.repr k ++ s) := by
  intro i j h
  simp only at h
  have hdata := congrArg String.data h
  simp only [String.data_append] at hdata
  have h1 := List.append_cancel_right hdata
  have h2 := List.append_cancel_left h1
  exact repr_inj (String.ext h2)

end TheSu

namespace TheSu

theorem append_repr_inj' (p : String) :
    Function.Injective (fun k => p ++ Nat.repr k) := by
  intro i j h
  simp only at h
  have hdata := congrArg String.data h
  simp only [String.data_append] at hdata
  exact repr_inj (String.ext (List.append_cancel_left hdata))

theorem quoted_append_repr_inj (p : String) :
    Function.Injective (fun k => quoted (p ++ Nat.repr k)) := by
  intro i j h
  simp only [quoted] at h
  have hdata := congrArg String.data h
  simp only [String.data_append, List.append_assoc] at hdata
  have h1 := List.append_cancel_left hdata
  have h2 := List.append_cancel_left h1
  have h3 := List.append_cancel_right h2
  exact repr_inj (String.ext h3)

/-- The shared body of the quoted-scan generators: first try the seed
candidate, then increment the numeric disambiguator (or append a counter to a
string seed) until `pseudo_node_exists` no longer reports a collision. -/
def allocTemplate (written : List String) (a mid b : String) (suffix : PySuffix) : String :=
  match suffix with
  | .str s =>
      if !s.isNat then
        let base := a ++ mid ++ b ++ "_" ++ s
        if pseudo_node_exists written base then
          incrementUntilFree (pseudo_node_exists written)
            (fun k => a ++ mid ++ b ++ "_" ++ s ++ "_" ++ Nat.repr k) 1
            (collisionFuel written)
        else base
      else
        let first := a ++ mid ++ b ++ "_" ++ s
        if pseudo_node_exists written first then
          incrementUntilFree (pseudo_node_exists written)
            (fun k => a ++ mid ++ b ++ "_" ++ Nat.repr k)
            (s.toNat?.getD 0 + 1) (collisionFuel written)
        else first
  | .num n =>
      incrementUntilFree (pseudo_node_exists written)
        (fun k => a ++ mid ++ b ++ "_" ++ Nat.repr k) n
        (collisionFuel written)

theorem alloc_loop_fresh (written : List String) (p : String) (k : Nat) :
    pseudo_node_exists written
      (incrementUntilFree (pseudo_node_exists written) (fun j => p ++ Nat.repr j) k
        (collisionFuel written)) = false := by
  have hinj : Function.Injective (fun j => quoted (p ++ Nat.repr (k + j))) := by
    intro i j h
    have := quoted_append_repr_inj p h
    omega
  have hex := exists_unmatched written (fun j => quoted (p ++ Nat.repr (k + j))) hinj
  have hfree : ∃ j, j < collisionFuel written ∧
      pseudo_node_exists written (p ++ Nat.repr (k + j)) = false := by
    rcases hex with ⟨j, hj, hfalse⟩
    exact ⟨j, hj, hfalse⟩
  rcases incrementUntilFree_spec (pseudo_node_exists written)
    (fun j => p ++ Nat.repr j) (collisionFuel written) k hfree with ⟨j, hb, _, heq⟩
  rw [heq]
  exact hb

/-- The returned id of the shared generator body never collides with any line
already committed to the output stream. -/
theorem allocTemplate_fresh (written : List String) (a mid b : String) (suffix : PySuffix) :
    pseudo_node_exists written (allocTemplate written a mid b suffix) = false := by
  cases suffix with
  | str s =>
      simp only [allocTemplate]
      by_cases hnat : (!s.isNat) = true
      · rw [if_pos hnat]
        by_cases hbase : pseudo_node_exists written (a ++ mid ++ b ++ "_" ++ s) = true
        · rw [if_pos hbase]
          exact alloc_loop_fresh written (a ++ mid ++ b ++ "_" ++ s ++ "_") 1
        · rw [if_neg hbase]
          simpa using hbase
      · rw [if_neg hnat]
        by_cases hbase : pseudo_node_exists written (a ++ mid ++ b ++ "_" ++ s) = true
        · rw [if_pos hbase]
          exact alloc_loop_fresh written (a ++ mid ++ b ++ "_") (s.toNat?.getD 0 + 1)
        · rw [if_neg hbase]
          simpa using hbase
  | num n =>
      simp only [allocTemplate]
      exact alloc_loop_fresh written (a ++ mid ++ b ++ "_") n

/-- `generate_unique_pseudo_node_id_targets`.  The Python generators for
targets, entailments, analogies, references and the three matching kinds are
verbatim copies of one another up to the id template; `allocTemplate` factors
that shared body and each named generator instantiates its own template. -/
def generate_unique_pseudo_node_id_targets (written : List String)
    (element_id target_ref : String) (suffix : PySuffix) : String :=
  allocTemplate written element_id "_to_" target_ref suffix

/-- `generate_unique_pseudo_node_id_entailments`. -/
def generate_unique_pseudo_node_id_entailments (written : List String)
    (entailed_by_ref element_id : String) (suffix : PySuffix) : String :=
  allocTemplate written entailed_by_ref "_to_" element_id suffix

/-- `generate_unique_pseudo_node_id_analogies`. -/
def generate_unique_pseudo_node_id_analogies (written : List String)
    (referenced_id element_id : String) (suffix : PySuffix) : String :=
  allocTemplate written referenced_id "_analogy_to_" element_id suffix

/-- `generate_unique_pseudo_node_id_references` (note the argument order:
the template quotes the referenced id first). -/
def generate_unique_pseudo_node_id_references (written : List String)
    (element_id referenced_id : String) (suffix : PySuffix) : String :=
  allocTemplate written referenced_id "_referenced-in_" element_id suffix

/-- `generate_unique_pseudo_node_id_matching_propositions`. -/
def generate_unique_pseudo_node_id_matching_propositions (written : List String)
    (prop_ref element_id : String) (suffix : PySuffix) : String :=
  allocTemplate written prop_ref "_to_" element_id suffix

/-- `generate_unique_pseudo_node_id_matching_sequences`. -/
def generate_unique_pseudo_node_id_matching_sequences (written : List String)
    (cluster_id prop_cluster_id : String) (suffix : PySuffix) : String :=
  allocTemplate written cluster_id "_to_" prop_cluster_id suffix

/-- `generate_unique_pseudo_node_id_matching_phases`. -/
def generate_unique_pseudo_node_id_matching_phases (written : List String)
    (prop_phase_ref current_phase : String) (suffix : PySuffix) : String :=
  allocTemplate written prop_phase_ref "_to_" current_phase suffix

/-- `generate_unique_pseudo_node_id_etiologies`: this one checks the raw
(unquoted) candidate against every line and always increments an integer
suffix. -/
def generate_unique_pseudo_node_id_etiologies (written : List String)
    (referenced_id element_id : String) (suffix : Nat) : String :=
  incrementUntilFree (fun base_id => written.any fun line => strIn base_id line)
    (fun k => referenced_id ++ "_in_etiology_in_" ++ element_id ++ "_" ++ Nat.repr k)
    suffix (collisionFuel written)

theorem etiologies_fresh (written : List String) (referenced_id element_id : String)
    (suffix : Nat) :
    (written.any fun line =>
      strIn (generate_unique_pseudo_node_id_etiologies written referenced_id element_id suffix)
        line) = false := by
  have hinj : Function.Injective
      (fun j => referenced_id ++ "_in_etiology_in_" ++ element_id ++ "_" ++ Nat.repr (suffix + j)) := by
    intro i j h
    have := append_repr_inj' (referenced_id ++ "_in_etiology_in_" ++ element_id ++ "_") h
    omega
  have hex := exists_unmatched written
    (fun j => referenced_id ++ "_in_etiology_in_" ++ element_id ++ "_" ++ Nat.repr (suffix + j))
    hinj
  have hfree : ∃ j, j < collisionFuel written ∧
      (fun base_id => written.any fun line => strIn base_id line)
        (referenced_id ++ "_in_etiology_in_" ++ element_id ++ "_" ++ Nat.repr (suffix + j)) = false := by
    rcases hex with ⟨j, hj, hfalse⟩
    exact ⟨j, hj, hfalse⟩
  rcases incrementUntilFree_spec (fun base_id => written.any fun line => strIn base_id line)
    (fun k => referenced_id ++ "_in_etiology_in_" ++ element_id ++ "_" ++ Nat.repr k)
    (collisionFuel written) suffix hfree with ⟨j, hb, _, heq⟩
  simp only [generate_unique_pseudo_node_id_etiologies]
  rw [heq]
  exact hb

end TheSu

namespace TheSu

/-! ## Emission discipline of the lowering stage
(`src/dot/support.py`, `src/dot/thesis.py`)

Every mediator node is emitted by the same discipline: allocate an id with one
of the generators above (scanning the lines written so far), write its node
definition line `"{id}" [...];`, then write edge lines `"{a}" -> "{b}" [...];`.
The function/employed pseudo-nodes (`{element_id}_func`, `{element_id}_employed`)
are written under a write-once guard instead of the generator.  The trace
model below captures exactly those emission shapes. -/

/-- Ids never contain a quote character (true of the source documents' `xml:id`
values and of every synthesized id). -/
def noQuote (s : String) : Bool :=
  decide ('"' ∉ s.data)

def noQuoteSfx : PySuffix → Bool
  | .num _ => true
  | .str s => noQuote s

theorem noQuote_append {a b : String} (ha : noQuote a = true) (hb : noQuote b = true) :
    noQuote (a ++ b) = true := by
  simp only [noQuote, decide_eq_true_eq, String.data_append] at *
  intro h
  rcases List.mem_append.mp h with h | h
  · exact ha h
  · exact hb h

theorem noQuote_repr (n : Nat) : noQuote (Nat.repr n) = true := by
  simp only [noQuote, decide_eq_true_eq]
  exact quote_not_mem_repr n

theorem noQuote_mem {s : String} (h : noQuote s = true) : '"' ∉ s.data := by
  simpa [noQuote] using h

/-- A node definition line as written by the lowering stage. -/
def defLine (node_id body : String) : String :=
  quoted node_id ++ " [" ++ body ++ "];"

/-- An edge line as written by the lowering stage. -/
def edgeLineStr (src tgt attrs : String) : String :=
  quoted src ++ " -> " ++ quoted tgt ++ " [" ++ attrs ++ "];"

/-- `line` is a node definition line for id `x`. -/
def isDefLineFor (x line : String) : Bool :=
  decide ((quoted x ++ " [").data <+: line.data)

/-- Number of node definition lines for `x`. -/
def countDefs (x : String) (lines : List String) : Nat :=
  (lines.filter (isDefLineFor x)).length

theorem countDefs_append (x : String) (lines : List String) (l : String) :
    countDefs x (lines ++ [l]) =
      countDefs x lines + (if isDefLineFor x l then 1 else 0) := by
  simp only [countDefs, List.filter_append, List.length_append]
  congr 1
  by_cases h : isDefLineFor x l <;> simp [h]

/-- The marker argument: a quote-free id followed by its closing quote
determines itself inside a prefix comparison. -/
theorem marker_prefix_eq :
    ∀ (x : List Char), '"' ∉ x → ∀ (z : List Char), '"' ∉ z → ∀ (r₁ r₂ : List Char),
      (x ++ '"' :: r₁) <+: (z ++ '"' :: r₂) → x = z ∧ r₁ <+: r₂ := by
  intro x
  induction x with
  | nil =>
      intro _ z hz r₁ r₂ h
      cases z with
      | nil =>
          simp only [List.nil_append] at h
          exact ⟨rfl, (List.cons_prefix_cons.mp h).2⟩
      | cons c z' =>
          simp only [List.nil_append, List.cons_append] at h
          have hc := (List.cons_prefix_cons.mp h).1
          exact absurd (hc ▸ List.mem_cons_self c z') hz
  | cons a x' ih =>
      intro hx z hz r₁ r₂ h
      cases z with
      | nil =>
          simp only [List.cons_append, List.nil_append] at h
          have ha := (List.cons_prefix_cons.mp h).1
          exact absurd (ha ▸ List.mem_cons_self a x') hx
      | cons c z' =>
          simp only [List.cons_append] at h
          rcases List.cons_prefix_cons.mp h with ⟨hac, htail⟩
          have hx' : '"' ∉ x' := fun hm => hx (List.mem_cons_of_mem a hm)
          have hz' : '"' ∉ z' := fun hm => hz (List.mem_cons_of_mem c hm)
          rcases ih hx' z' hz' r₁ r₂ htail with ⟨heq, hpre⟩
          exact ⟨by rw [hac, heq], hpre⟩

theorem defLine_data (z body : String) :
    (defLine z body).data = '"' :: (z.data ++ '"' :: (' ' :: '[' :: (body ++ "];").data)) := by
  simp [defLine, quoted, String.data_append, List.append_assoc]

theorem defMarker_data (x : String) :
    (quoted x ++ " [").data = '"' :: (x.data ++ '"' :: [' ', '[']) := by
  simp [quoted, String.data_append, List.append_assoc]

theorem edgeLineStr_data (s t attrs : String) :
    (edgeLineStr s t attrs).data =
      '"' :: (s.data ++ '"' ::
        (' ' :: '-' :: '>' :: ' ' :: (quoted t ++ " [" ++ attrs ++ "];").data)) := by
  simp [edgeLineStr, quoted, String.data_append, List.append_assoc]

theorem isDefLineFor_defLine_self (z body : String) :
    isDefLineFor z (defLine z body) = true := by
  simp only [isDefLineFor, decide_eq_true_eq, defMarker_data, defLine_data]
  refine List.cons_prefix_cons.mpr ⟨rfl, ?_⟩
  refine (List.prefix_append_right_inj z.data).mpr ?_
  refine List.cons_prefix_cons.mpr ⟨rfl, ?_⟩
  refine List.cons_prefix_cons.mpr ⟨rfl, ?_⟩
  refine List.cons_prefix_cons.mpr ⟨rfl, ?_⟩
  simp

theorem isDefLineFor_defLine_eq {x z : String} (hx : noQuote x = true)
    (hz : noQuote z = true) (body : String)
    (h : isDefLineFor x (defLine z body) = true) : x = z := by
  simp only [isDefLineFor, decide_eq_true_eq, defMarker_data, defLine_data] at h
  have htail := (List.cons_prefix_cons.mp h).2
  have := marker_prefix_eq x.data (noQuote_mem hx) z.data (noQuote_mem hz) _ _ htail
  exact String.ext this.1

theorem isDefLineFor_edgeLine {x s : String} (hx : noQuote x = true)
    (hs : noQuote s = true) (t attrs : String) :
    isDefLineFor x (edgeLineStr s t attrs) = false := by
  by_contra hcon
  have h : isDefLineFor x (edgeLineStr s t attrs) = true := by
    revert hcon; cases isDefLineFor x (edgeLineStr s t attrs) <;> simp
  simp only [isDefLineFor, decide_eq_true_eq, defMarker_data, edgeLineStr_data] at h
  have htail := (List.cons_prefix_cons.mp h).2
  have hmk := marker_prefix_eq x.data (noQuote_mem hx) s.data (noQuote_mem hs) _ _ htail
  have hpre := hmk.2
  have h1 := List.cons_prefix_cons.mp hpre
  have h2 := List.cons_prefix_cons.mp h1.2
  exact absurd h2.1 (by decide)

theorem infix_of_pre {a b : List Char} (h : a <+: b) : a <:+: b := by
  rcases h with ⟨t, ht⟩
  exact ⟨[], t, by simpa using ht⟩

theorem strIn_quoted_of_def {x l : String} (h : isDefLineFor x l = true) :
    strIn (quoted x) l = true := by
  simp only [isDefLineFor, decide_eq_true_eq] at h
  rw [strIn_iff]
  have hpre : (quoted x).data <+: (quoted x ++ " [").data := by
    simp [String.data_append]
  exact (infix_of_pre (hpre.trans h))

theorem countDefs_zero_of_fresh {written : List String} {x : String}
    (h : pseudo_node_exists written x = false) : countDefs x written = 0 := by
  simp only [countDefs, List.length_eq_zero, List.filter_eq_nil_iff]
  intro l hl
  intro hdef
  have hin := strIn_quoted_of_def hdef
  have : pseudo_node_exists written x = true :=
    List.any_eq_true.mpr ⟨l, hl, hin⟩
  rw [h] at this
  cases this

end TheSu

namespace TheSu

theorem incrementUntilFree_exists_index (bad : String → Bool) (cand : Nat → String) :
    ∀ (fuel k : Nat), ∃ m, incrementUntilFree bad cand k fuel = cand m := by
  intro fuel
  induction fuel with
  | zero => intro k; exact ⟨k, rfl⟩
  | succ fuel ih =>
      intro k
      simp only [incrementUntilFree]
      by_cases h : bad (cand k) = true
      · rw [if_pos h]; exact ih (k + 1)
      · rw [if_neg h]; exact ⟨k, rfl⟩

theorem allocTemplate_noQuote (written : List String) {a mid b : String}
    (ha : noQuote a = true)
    (hmid : noQuote mid = true) (hb : noQuote b = true) {suffix : PySuffix}
    (hs : noQuoteSfx suffix = true) :
    noQuote (allocTemplate written a mid b suffix) = true := by
  have hu : noQuote "_" = true := by decide
  have hpfx : noQuote (a ++ mid ++ b ++ "_") = true :=
    noQuote_append (noQuote_append (noQuote_append ha hmid) hb) hu
  cases suffix with
  | str s =>
      have hsq : noQuote s = true := hs
      simp only [allocTemplate]
      by_cases hnat : (!s.isNat) = true
      · rw [if_pos hnat]
        by_cases hbase : pseudo_node_exists written (a ++ mid ++ b ++ "_" ++ s) = true
        · rw [if_pos hbase]
          rcases incrementUntilFree_exists_index (pseudo_node_exists written)
            (fun k => a ++ mid ++ b ++ "_" ++ s ++ "_" ++ Nat.repr k)
            (collisionFuel written) 1 with ⟨m, hm⟩
          rw [hm]
          exact noQuote_append (noQuote_append (noQuote_append hpfx hsq) hu) (noQuote_repr m)
        · rw [if_neg hbase]
          exact noQuote_append hpfx hsq
      · rw [if_neg hnat]
        by_cases hbase : pseudo_node_exists written (a ++ mid ++ b ++ "_" ++ s) = true
        · rw [if_pos hbase]
          rcases incrementUntilFree_exists_index (pseudo_node_exists written)
            (fun k => a ++ mid ++ b ++ "_" ++ Nat.repr k)
            (collisionFuel written) (s.toNat?.getD 0 + 1) with ⟨m, hm⟩
          rw [hm]
          exact noQuote_append hpfx (noQuote_repr m)
        · rw [if_neg hbase]
          exact noQuote_append hpfx hsq
  | num n =>
      simp only [allocTemplate]
      rcases incrementUntilFree_exists_index (pseudo_node_exists written)
        (fun k => a ++ mid ++ b ++ "_" ++ Nat.repr k)
        (collisionFuel written) n with ⟨m, hm⟩
      rw [hm]
      exact noQuote_append hpfx (noQuote_repr m)

theorem etiologies_noQuote {referenced_id element_id : String}
    (hr : noQuote referenced_id = true) (he : noQuote element_id = true)
    (written : List String) (suffix : Nat) :
    noQuote (generate_unique_pseudo_node_id_etiologies written referenced_id element_id suffix)
      = true := by
  have hu : noQuote "_" = true := by decide
  have hm : noQuote "_in_etiology_in_" = true := by decide
  rcases incrementUntilFree_exists_index
    (fun base_id => written.any fun line => strIn base_id line)
    (fun k => referenced_id ++ "_in_etiology_in_" ++ element_id ++ "_" ++ Nat.repr k)
    (collisionFuel written) suffix with ⟨m, hmm⟩
  simp only [generate_unique_pseudo_node_id_etiologies]
  rw [hmm]
  exact noQuote_append (noQuote_append (noQuote_append (noQuote_append hr hm) he) hu)
    (noQuote_repr m)

/-- Quoted collision-freedom for the etiology generator: if the raw candidate
occurs in no line, its quoted form occurs in no line either. -/
theorem etiologies_fresh_quoted (written : List String) (referenced_id element_id : String)
    (suffix : Nat) :
    pseudo_node_exists written
      (generate_unique_pseudo_node_id_etiologies written referenced_id element_id suffix)
      = false := by
  have hraw := etiologies_fresh written referenced_id element_id suffix
  by_contra hcon
  have h : pseudo_node_exists written
      (generate_unique_pseudo_node_id_etiologies written referenced_id element_id suffix)
      = true := by
    revert hcon
    cases pseudo_node_exists written
      (generate_unique_pseudo_node_id_etiologies written referenced_id element_id suffix) <;>
      simp
  rcases List.any_eq_true.mp h with ⟨l, hl, hq⟩
  have hinf :
      (generate_unique_pseudo_node_id_etiologies written referenced_id element_id suffix).data
        <:+: l.data := by
    have h1 := (strIn_iff _ _).mp hq
    have h2 : (generate_unique_pseudo_node_id_etiologies written referenced_id element_id
        suffix).data <:+:
        (quoted (generate_unique_pseudo_node_id_etiologies written referenced_id element_id
          suffix)).data := by
      refine ⟨("\"" : String).data, ("\"" : String).data, ?_⟩
      simp [quoted, String.data_append]
    exact h2.trans h1
  have : (written.any fun line =>
      strIn (generate_unique_pseudo_node_id_etiologies written referenced_id element_id suffix)
        line) = true :=
    List.any_eq_true.mpr ⟨l, hl, (strIn_iff _ _).mpr hinf⟩
  rw [hraw] at this
  cases this

end TheSu

namespace TheSu

/-- First-free characterisation of the generators' numeric loop: the returned
id is the candidate at the first disambiguator value, counting up from the
seed, whose quoted form occurs in none of the committed lines. -/
theorem alloc_loop_spec (written : List String) (p : String) (k : Nat) :
    ∃ j, (∀ i < j, pseudo_node_exists written (p ++ Nat.repr (k + i)) = true) ∧
      pseudo_node_exists written (p ++ Nat.repr (k + j)) = false ∧
      incrementUntilFree (pseudo_node_exists written) (fun m => p ++ Nat.repr m) k
        (collisionFuel written) = p ++ Nat.repr (k + j) := by
  have hinj : Function.Injective (fun j => quoted (p ++ Nat.repr (k + j))) := by
    intro i j h
    have := quoted_append_repr_inj p h
    omega
  have hex := exists_unmatched written (fun j => quoted (p ++ Nat.repr (k + j))) hinj
  have hfree : ∃ j, j < collisionFuel written ∧
      pseudo_node_exists written (p ++ Nat.repr (k + j)) = false := by
    rcases hex with ⟨j, hj, hfalse⟩
    exact ⟨j, hj, hfalse⟩
  rcases incrementUntilFree_spec (pseudo_node_exists written)
    (fun m => p ++ Nat.repr m) (collisionFuel written) k hfree with ⟨j, hb, hall, heq⟩
  exact ⟨j, hall, hb, heq⟩

/-- One emission step of the lowering stage: allocate-and-define a mediator
pseudo-node through one of the generators, define a guarded `_func` /
`_employed` node, or write an edge line. -/
inductive EmitEvent
  | allocTargets (element_id target_ref : String) (suffix : PySuffix) (body : String)
  | allocEntailments (entailed_by_ref element_id : String) (suffix : PySuffix) (body : String)
  | allocEtiologies (referenced_id element_id : String) (suffix : Nat) (body : String)
  | allocAnalogies (referenced_id element_id : String) (suffix : PySuffix) (body : String)
  | allocReferences (element_id referenced_id : String) (suffix : PySuffix) (body : String)
  | allocMatchingPropositions (prop_ref element_id : String) (suffix : PySuffix) (body : String)
  | allocMatchingSequences (cluster_id prop_cluster_id : String) (suffix : PySuffix) (body : String)
  | allocMatchingPhases (prop_phase_ref current_phase : String) (suffix : PySuffix) (body : String)
  | guardedDef (node_id body : String)
  | edgeLine (src tgt attrs : String)
deriving DecidableEq

/-- The mediator id defined by an event (edges define none). -/
def eventId (lines : List String) : EmitEvent → Option String
  | .allocTargets e t s _ => some (generate_unique_pseudo_node_id_targets lines e t s)
  | .allocEntailments eb e s _ => some (generate_unique_pseudo_node_id_entailments lines eb e s)
  | .allocEtiologies r e s _ => some (generate_unique_pseudo_node_id_etiologies lines r e s)
  | .allocAnalogies r e s _ => some (generate_unique_pseudo_node_id_analogies lines r e s)
  | .allocReferences e r s _ => some (generate_unique_pseudo_node_id_references lines e r s)
  | .allocMatchingPropositions p e s _ =>
      some (generate_unique_pseudo_node_id_matching_propositions lines p e s)
  | .allocMatchingSequences c p s _ =>
      some (generate_unique_pseudo_node_id_matching_sequences lines c p s)
  | .allocMatchingPhases p c s _ =>
      some (generate_unique_pseudo_node_id_matching_phases lines p c s)
  | .guardedDef g _ => some g
  | .edgeLine _ _ _ => none

/-- The line the event appends to the DOT stream. -/
def eventLine (lines : List String) : EmitEvent → String
  | .allocTargets e t s b =>
      defLine (generate_unique_pseudo_node_id_targets lines e t s) b
  | .allocEntailments eb e s b =>
      defLine (generate_unique_pseudo_node_id_entailments lines eb e s) b
  | .allocEtiologies r e s b =>
      defLine (generate_unique_pseudo_node_id_etiologies lines r e s) b
  | .allocAnalogies r e s b =>
      defLine (generate_unique_pseudo_node_id_analogies lines r e s) b
  | .allocReferences e r s b =>
      defLine (generate_unique_pseudo_node_id_references lines e r s) b
  | .allocMatchingPropositions p e s b =>
      defLine (generate_unique_pseudo_node_id_matching_propositions lines p e s) b
  | .allocMatchingSequences c p s b =>
      defLine (generate_unique_pseudo_node_id_matching_sequences lines c p s) b
  | .allocMatchingPhases p c s b =>
      defLine (generate_unique_pseudo_node_id_matching_phases lines p c s) b
  | .guardedDef g b => defLine g b
  | .edgeLine s t a => edgeLineStr s t a

def stepEmit (lines : List String) (ev : EmitEvent) : List String :=
  lines ++ [eventLine lines ev]

def runEmit (lines : List String) : List EmitEvent → List String
  | [] => lines
  | ev :: rest => runEmit (stepEmit lines ev) rest

/-- All mediator ids allocated or guard-defined along a trace. -/
def emittedIds (lines : List String) : List EmitEvent → List String
  | [] => []
  | ev :: rest =>
      match eventId lines ev with
      | some id => id :: emittedIds (stepEmit lines ev) rest
      | none => emittedIds (stepEmit lines ev) rest

/-- Event well-formedness: ids fed to the generators are quote-free, a guarded
`_func`/`_employed` definition is only written while its id is still unused
(the write-once guard of the lowering stage), and edge sources are ids. -/
def wfEvent (lines : List String) : EmitEvent → Bool
  | .allocTargets e t s _ => noQuote e && noQuote t && noQuoteSfx s
  | .allocEntailments eb e s _ => noQuote eb && noQuote e && noQuoteSfx s
  | .allocEtiologies r e _ _ => noQuote r && noQuote e
  | .allocAnalogies r e s _ => noQuote r && noQuote e && noQuoteSfx s
  | .allocReferences e r s _ => noQuote e && noQuote r && noQuoteSfx s
  | .allocMatchingPropositions p e s _ => noQuote p && noQuote e && noQuoteSfx s
  | .allocMatchingSequences c p s _ => noQuote c && noQuote p && noQuoteSfx s
  | .allocMatchingPhases p c s _ => noQuote p && noQuote c && noQuoteSfx s
  | .guardedDef g _ => noQuote g && !(pseudo_node_exists lines g)
  | .edgeLine s _ _ => noQuote s

def wfTrace : List String → List EmitEvent → Bool
  | _, [] => true
  | lines, ev :: rest => wfEvent lines ev && wfTrace (stepEmit lines ev) rest

theorem event_some_spec (lines : List String) (ev : EmitEvent)
    (hwf : wfEvent lines ev = true) {id : String} (hid : eventId lines ev = some id) :
    noQuote id = true ∧ pseudo_node_exists lines id = false ∧
      ∃ body, eventLine lines ev = defLine id body := by
  cases ev with
  | allocTargets e t s b =>
      simp only [eventId, Option.some.injEq] at hid
      subst hid
      simp only [wfEvent, Bool.and_eq_true] at hwf
      exact ⟨allocTemplate_noQuote lines hwf.1.1 (by decide) hwf.1.2 hwf.2,
        allocTemplate_fresh lines e "_to_" t s, b, rfl⟩
  | allocEntailments eb e s b =>
      simp only [eventId, Option.some.injEq] at hid
      subst hid
      simp only [wfEvent, Bool.and_eq_true] at hwf
      exact ⟨allocTemplate_noQuote lines hwf.1.1 (by decide) hwf.1.2 hwf.2,
        allocTemplate_fresh lines eb "_to_" e s, b, rfl⟩
  | allocEtiologies r e s b =>
      simp only [eventId, Option.some.injEq] at hid
      subst hid
      simp only [wfEvent, Bool.and_eq_true] at hwf
      exact ⟨etiologies_noQuote hwf.1 hwf.2 lines s,
        etiologies_fresh_quoted lines r e s, b, rfl⟩
  | allocAnalogies r e s b =>
      simp only [eventId, Option.some.injEq] at hid
      subst hid
      simp only [wfEvent, Bool.and_eq_true] at hwf
      exact ⟨allocTemplate_noQuote lines hwf.1.1 (by decide) hwf.1.2 hwf.2,
        allocTemplate_fresh lines r "_analogy_to_" e s, b, rfl⟩
  | allocReferences e r s b =>
      simp only [eventId, Option.some.injEq] at hid
      subst hid
      simp only [wfEvent, Bool.and_eq_true] at hwf
      exact ⟨allocTemplate_noQuote lines hwf.1.2 (by decide) hwf.1.1 hwf.2,
        allocTemplate_fresh lines r "_referenced-in_" e s, b, rfl⟩
  | allocMatchingPropositions p e s b =>
      simp only [eventId, Option.some.injEq] at hid
      subst hid
      simp only [wfEvent, Bool.and_eq_true] at hwf
      exact ⟨allocTemplate_noQuote lines hwf.1.1 (by decide) hwf.1.2 hwf.2,
        allocTemplate_fresh lines p "_to_" e s, b, rfl⟩
  | allocMatchingSequences c p s b =>
      simp only [eventId, Option.some.injEq] at hid
      subst hid
      simp only [wfEvent, Bool.and_eq_true] at hwf
      exact ⟨allocTemplate_noQuote lines hwf.1.1 (by decide) hwf.1.2 hwf.2,
        allocTemplate_fresh lines c "_to_" p s, b, rfl⟩
  | allocMatchingPhases p c s b =>
      simp only [eventId, Option.some.injEq] at hid
      subst hid
      simp only [wfEvent, Bool.and_eq_true] at hwf
      exact ⟨allocTemplate_noQuote lines hwf.1.1 (by decide) hwf.1.2 hwf.2,
        allocTemplate_fresh lines p "_to_" c s, b, rfl⟩
  | guardedDef g b =>
      simp only [eventId, Option.some.injEq] at hid
      subst hid
      simp only [wfEvent, Bool.and_eq_true] at hwf
      refine ⟨hwf.1, ?_, b, rfl⟩
      have h2 := hwf.2
      revert h2
      cases pseudo_node_exists lines g <;> simp
  | edgeLine s t a => simp [eventId] at hid

theorem event_none_spec (lines : List String) (ev : EmitEvent)
    (hwf : wfEvent lines ev = true) (hid : eventId lines ev = none) :
    ∃ s t a, eventLine lines ev = edgeLineStr s t a ∧ noQuote s = true := by
  cases ev <;> simp_all [eventId, wfEvent, eventLine]
  rename_i s t a
  exact ⟨s, ⟨t, a, rfl⟩, hwf⟩

theorem runEmit_countDefs (evs : List EmitEvent) :
    ∀ (lines : List String) (acc : List String),
      wfTrace lines evs = true →
      (∀ x ∈ acc, noQuote x = true ∧ countDefs x lines = 1) →
      ∀ x, (x ∈ acc ∨ x ∈ emittedIds lines evs) →
        countDefs x (runEmit lines evs) = 1 := by
  induction evs with
  | nil =>
      intro lines acc _ hacc x hx
      rcases hx with hx | hx
      · exact (hacc x hx).2
      · simp [emittedIds] at hx
  | cons ev rest ih =>
      intro lines acc hwf hacc x hx
      have hsplit : wfEvent lines ev = true ∧ wfTrace (stepEmit lines ev) rest = true := by
        have h : (wfEvent lines ev && wfTrace (stepEmit lines ev) rest) = true := hwf
        simp only [Bool.and_eq_true] at h
        exact h
      cases hcase : eventId lines ev with
      | some id =>
          obtain ⟨hidq, hidfresh, body, hline⟩ := event_some_spec lines ev hsplit.1 hcase
          have hacc' : ∀ y ∈ id :: acc, noQuote y = true ∧
              countDefs y (stepEmit lines ev) = 1 := by
            intro y hy
            rcases List.mem_cons.mp hy with hy | hy
            · subst hy
              refine ⟨hidq, ?_⟩
              rw [stepEmit, hline, countDefs_append,
                countDefs_zero_of_fresh hidfresh,
                if_pos (isDefLineFor_defLine_self y body)]
            · obtain ⟨hyq, hyc⟩ := hacc y hy
              refine ⟨hyq, ?_⟩
              rw [stepEmit, hline, countDefs_append, hyc]
              have hne : isDefLineFor y (defLine id body) = false := by
                by_contra hcon
                have htrue : isDefLineFor y (defLine id body) = true := by
                  revert hcon
                  cases isDefLineFor y (defLine id body) <;> simp
                have heq := isDefLineFor_defLine_eq hyq hidq body htrue
                subst heq
                rw [countDefs_zero_of_fresh hidfresh] at hyc
                cases hyc
              rw [if_neg (by simp [hne])]
          have hmem : x ∈ (id :: acc) ∨ x ∈ emittedIds (stepEmit lines ev) rest := by
            rcases hx with hx | hx
            · exact Or.inl (List.mem_cons_of_mem id hx)
            · have : emittedIds lines (ev :: rest) =
                  id :: emittedIds (stepEmit lines ev) rest := by
                simp [emittedIds, hcase]
              rw [this] at hx
              rcases List.mem_cons.mp hx with hx | hx
              · exact Or.inl (by simp [hx])
              · exact Or.inr hx
          have := ih (stepEmit lines ev) (id :: acc) hsplit.2 hacc' x hmem
          simpa [runEmit] using this
      | none =>
          obtain ⟨s, t, a, hline, hsq⟩ := event_none_spec lines ev hsplit.1 hcase
          have hacc' : ∀ y ∈ acc, noQuote y = true ∧
              countDefs y (stepEmit lines ev) = 1 := by
            intro y hy
            obtain ⟨hyq, hyc⟩ := hacc y hy
            refine ⟨hyq, ?_⟩
            rw [stepEmit, hline, countDefs_append, hyc,
              if_neg (by simp [isDefLineFor_edgeLine hyq hsq])]
          have hmem : x ∈ acc ∨ x ∈ emittedIds (stepEmit lines ev) rest := by
            rcases hx with hx | hx
            · exact Or.inl hx
            · have : emittedIds lines (ev :: rest) =
                  emittedIds (stepEmit lines ev) rest := by
                simp [emittedIds, hcase]
              rw [this] at hx
              exact Or.inr hx
          have := ih (stepEmit lines ev) acc hsplit.2 hacc' x hmem
          simpa [runEmit] using this

end TheSu

namespace TheSu

/-- **C2.**  For every mediator node id emitted during lowering (function,
employed, entailment, etiology, analogy, reference, and matching
pseudo-nodes), the id appears as a node definition exactly once in the
emitted graph text; id allocation never returns an id that already occurs in
the previously written lines, and the numeric disambiguator is incremented
until the first collision-free candidate. -/
theorem C2_mediator_id_uniqueness :
    (∀ (lines : List String) (evs : List EmitEvent), wfTrace lines evs = true →
        ∀ x ∈ emittedIds lines evs, countDefs x (runEmit lines evs) = 1) ∧
    (∀ (written : List String) (element_id target_ref : String) (suffix : PySuffix),
        pseudo_node_exists written
          (generate_unique_pseudo_node_id_targets written element_id target_ref suffix)
          = false) ∧
    (∀ (written : List String) (element_id target_ref : String) (n : Nat),
        ∃ j, (∀ i < j, pseudo_node_exists written
                (element_id ++ "_to_" ++ target_ref ++ "_" ++ Nat.repr (n + i)) = true) ∧
          pseudo_node_exists written
            (element_id ++ "_to_" ++ target_ref ++ "_" ++ Nat.repr (n + j)) = false ∧
          generate_unique_pseudo_node_id_targets written element_id target_ref
              (PySuffix.num n) =
            element_id ++ "_to_" ++ target_ref ++ "_" ++ Nat.repr (n + j)) := by
  refine ⟨?_, ?_, ?_⟩
  · intro lines evs hwf x hx
    exact runEmit_countDefs evs lines [] hwf (by simp) x (Or.inr hx)
  · intro written e t s
    exact allocTemplate_fresh written e "_to_" t s
  · intro written e t n
    have h := alloc_loop_spec written (e ++ "_to_" ++ t ++ "_") n
    simpa [generate_unique_pseudo_node_id_targets, allocTemplate] using h

/-- Concrete instance of `C2_mediator_id_uniqueness`: a guarded function node,
one edge referencing it, and one generated omitted-target pseudo-node. -/
theorem C2_mediator_id_uniqueness_witness :
    wfTrace []
      [EmitEvent.guardedDef "S1_func" "label=J",
       EmitEvent.edgeLine "S1" "S1_func" "dir=none",
       EmitEvent.allocTargets "S1" "om" (PySuffix.num 1) "label=om"] = true ∧
    countDefs "S1_func"
      (runEmit []
        [EmitEvent.guardedDef "S1_func" "label=J",
         EmitEvent.edgeLine "S1" "S1_func" "dir=none",
         EmitEvent.allocTargets "S1" "om" (PySuffix.num 1) "label=om"]) = 1 := by
  refine ⟨by decide, ?_⟩
  exact C2_mediator_id_uniqueness.1 []
    [EmitEvent.guardedDef "S1_func" "label=J",
     EmitEvent.edgeLine "S1" "S1_func" "dir=none",
     EmitEvent.allocTargets "S1" "om" (PySuffix.num 1) "label=om"]
    (by decide) "S1_func" (by decide)

end TheSu

namespace TheSu

/-! ## The DOT file model for the rewriting passes

Each rewriting pass re-reads the file and classifies every line with the same
two regexes (`node_def_pattern`, `edge_def_pattern`); all remaining lines are
kept untouched.  `DotLine` is that classification: a node definition line
`"{id}" [attrs];`, an edge line `"{src}" -> "{tgt}" [attrs];`, a blank line,
or any other text line (header, `subgraph`, braces, ...). -/
inductive DotLine
  | nodeDef (id attrs : String)
  | edge (src tgt attrs : String)
  | blank
  | text (s : String)
deriving DecidableEq

/-- Python's `str.endswith`. -/
def strEnds (s sfx : String) : Bool :=
  decide (sfx.data <:+ s.data)

/-- Python's `str.startswith`. -/
def strStarts (s pat : String) : Bool :=
  decide (pat.data <+: s.data)

/-- Python's `str.strip()`: drop leading and trailing whitespace. -/
def strStrip (s : String) : String :=
  ⟨((s.data.dropWhile Char.isWhitespace).reverse.dropWhile
      Char.isWhitespace).reverse⟩

/-- `is_mediator_node` from `src/dot/postprocess/filtered_pruning.py`. -/
def is_mediator_node (node_id : String) : Bool :=
  strEnds node_id "_func" || strEnds node_id "_employed" ||
  strIn "_to_" node_id ||
  strIn "_in_etiology_in_" node_id ||
  strIn "_analogy_to_" node_id ||
  strIn "_referenced-in_" node_id

/-- The node ids defined in the file (`_parse_dot_graph`, node part). -/
def definedNodes (lines : List DotLine) : List String :=
  lines.filterMap fun l =>
    match l with
    | .nodeDef id _ => some id
    | _ => none

/-- The edges of the file in order (`_parse_dot_graph`, edge part).  The
Python pass records each edge with its line index and later removes edges by
index; since every removal criterion depends only on the endpoint ids, the
embedding identifies an edge with its endpoint pair. -/
def edgeList (lines : List DotLine) : List (String × String) :=
  lines.filterMap fun l =>
    match l with
    | .edge s t _ => some (s, t)
    | _ => none

/-- The undirected adjacency view built by `_parse_dot_graph`. -/
def adjacency (edges : List (String × String)) (x : String) : List String :=
  (edges.filterMap fun e => if e.1 = x then some e.2 else none) ++
  (edges.filterMap fun e => if e.2 = x then some e.1 else none)

/-- Every node mentioned by the file (a superset of every BFS frontier). -/
def nodeUniverse (lines : List DotLine) : List String :=
  definedNodes lines ++ (edgeList lines).flatMap fun e => [e.1, e.2]

theorem adjacency_subset_universe (lines : List DotLine) (x y : String)
    (h : y ∈ adjacency (edgeList lines) x) : y ∈ nodeUniverse lines := by
  simp only [adjacency, List.mem_append, List.mem_filterMap] at h
  rcases h with ⟨e, he, hy⟩ | ⟨e, he, hy⟩ <;>
  · split at hy
    · simp only [Option.some.injEq] at hy
      subst hy
      refine List.mem_append.mpr (Or.inr ?_)
      exact List.mem_flatMap.mpr ⟨e, he, by simp⟩
    · cases hy

/-! ### Phase 1a of `prune_and_connect_filtered_nodes`: which filtered nodes
to keep.  For each filtered node a BFS walks the undirected adjacency,
continuing only through mediator nodes, and succeeds as soon as it sees an
unfiltered node. -/

/-- The inner `for nb in adjacency.get(curr, [])` loop: extend the visited
set, record the mediator neighbours to enqueue, and stop at the first
unfiltered neighbour. -/
def bfsScan (unf med : String → Bool) :
    List String → List String → List String → (List String × List String × Bool)
  | [], visited, acc => (visited, acc, false)
  | nb :: rest, visited, acc =>
      if decide (nb ∈ visited) then bfsScan unf med rest visited acc
      else if unf nb then (nb :: visited, acc, true)
      else if med nb then bfsScan unf med rest (nb :: visited) (acc ++ [nb])
      else bfsScan unf med rest (nb :: visited) acc

/-- The outer `while queue and not found` loop; returns the found flag and
the final visited set. -/
def bfsLoop (adj : String → List String) (unf med : String → Bool) :
    Nat → List String → List String → (Bool × List String)
  | 0, visited, _ => (false, visited)
  | fuel + 1, visited, queue =>
      match queue with
      | [] => (false, visited)
      | curr :: qrest =>
          match bfsScan unf med (adj curr) visited [] with
          | (v', newq, found) =>
              if found then (true, v')
              else bfsLoop adj unf med fuel v' (qrest ++ newq)

/-- Phase 1a decision for one filtered node `f_node`. -/
def reachesUnfiltered (adj : String → List String) (unf med : String → Bool)
    (fuel : Nat) (f_node : String) : Bool :=
  (bfsLoop adj unf med fuel [f_node] [f_node]).1

end TheSu

namespace TheSu

/-- The mediator-only step relation used by the pruning BFS: one hop of the
undirected adjacency landing on a mediator node. -/
def medStep (adj : String → List String) (med : String → Bool) (a b : String) : Prop :=
  b ∈ adj a ∧ med b = true

theorem nodup_subset_length {v U : List String} (hnd : v.Nodup) (hsub : v ⊆ U) :
    v.length ≤ U.length := by
  calc v.length = v.toFinset.card := (List.toFinset_card_of_nodup hnd).symm
    _ ≤ U.toFinset.card := by
        refine Finset.card_le_card ?_
        intro x hx
        exact List.mem_toFinset.mpr (hsub (List.mem_toFinset.mp hx))
    _ ≤ U.length := U.toFinset_card_le

theorem bfsScan_spec (unf med : String → Bool) :
    ∀ (nbrs visited acc v' q' : List String) (fnd : Bool),
      bfsScan unf med nbrs visited acc = (v', q', fnd) →
      (∀ x ∈ visited, x ∈ v') ∧
      (∀ x ∈ v', x ∈ visited ∨ x ∈ nbrs) ∧
      (∀ x ∈ acc, x ∈ q') ∧
      (∀ x ∈ q', x ∈ acc ∨ (x ∈ nbrs ∧ med x = true ∧ x ∈ v')) ∧
      (fnd = true → ∃ u ∈ nbrs, unf u = true) ∧
      (fnd = false → ∀ nb ∈ nbrs, nb ∈ v') ∧
      (fnd = false → ∀ x ∈ v', x ∉ visited → unf x = false) ∧
      (fnd = false → ∀ x ∈ v', x ∉ visited → med x = true → x ∈ q') ∧
      (q'.length + visited.length ≤ acc.length + v'.length) ∧
      (visited.Nodup → v'.Nodup) := by
  intro nbrs
  induction nbrs with
  | nil =>
      intro visited acc v' q' fnd h
      simp only [bfsScan, Prod.mk.injEq] at h
      obtain ⟨rfl, rfl, rfl⟩ := h
      refine ⟨fun x hx => hx, fun x hx => Or.inl hx, fun x hx => hx, fun x hx => Or.inl hx,
        by simp, by simp, ?_, ?_, by omega, fun h => h⟩
      · intro _ x hx hnx; exact absurd hx hnx
      · intro _ x hx hnx; exact absurd hx hnx
  | cons nb rest ih =>
      intro visited acc v' q' fnd h
      simp only [bfsScan] at h
      by_cases hvis : nb ∈ visited
      · rw [if_pos (by simpa using hvis)] at h
        obtain ⟨h1, h2, h3, h4, h5, h6, h7, h8, h9, h10⟩ := ih visited acc v' q' fnd h
        refine ⟨h1, ?_, h3, ?_, ?_, ?_, h7, h8, h9, h10⟩
        · intro x hx
          rcases h2 x hx with hx | hx
          · exact Or.inl hx
          · exact Or.inr (List.mem_cons_of_mem nb hx)
        · intro x hx
          rcases h4 x hx with hx | ⟨hx1, hx2, hx3⟩
          · exact Or.inl hx
          · exact Or.inr ⟨List.mem_cons_of_mem nb hx1, hx2, hx3⟩
        · intro hf
          rcases h5 hf with ⟨u, hu, huf⟩
          exact ⟨u, List.mem_cons_of_mem nb hu, huf⟩
        · intro hf x hx
          rcases List.mem_cons.mp hx with hx | hx
          · subst hx; exact h1 x hvis
          · exact h6 hf x hx
      · rw [if_neg (by simpa using hvis)] at h
        by_cases hunf : unf nb = true
        · rw [if_pos hunf] at h
          simp only [Prod.mk.injEq] at h
          obtain ⟨rfl, rfl, rfl⟩ := h
          refine ⟨fun x hx => List.mem_cons_of_mem nb hx, ?_, fun x hx => hx,
            fun x hx => Or.inl hx, fun _ => ⟨nb, by simp, hunf⟩, by simp, by simp, by simp,
            by simp only [List.length_cons]; omega, ?_⟩
          · intro x hx
            rcases List.mem_cons.mp hx with hx | hx
            · exact Or.inr (by simp [hx])
            · exact Or.inl hx
          · intro hnd
            exact List.nodup_cons.mpr ⟨hvis, hnd⟩
        · rw [if_neg hunf] at h
          by_cases hmed : med nb = true
          · rw [if_pos hmed] at h
            obtain ⟨h1, h2, h3, h4, h5, h6, h7, h8, h9, h10⟩ :=
              ih (nb :: visited) (acc ++ [nb]) v' q' fnd h
            have hnbv : nb ∈ v' := h1 nb (by simp)
            refine ⟨?_, ?_, ?_, ?_, ?_, ?_, ?_, ?_, ?_, ?_⟩
            · intro x hx; exact h1 x (List.mem_cons_of_mem nb hx)
            · intro x hx
              rcases h2 x hx with hx | hx
              · rcases List.mem_cons.mp hx with hx | hx
                · exact Or.inr (by simp [hx])
                · exact Or.inl hx
              · exact Or.inr (List.mem_cons_of_mem nb hx)
            · intro x hx; exact h3 x (by simp [hx])
            · intro x hx
              rcases h4 x hx with hx | ⟨hx1, hx2, hx3⟩
              · rcases List.mem_append.mp hx with hx | hx
                · exact Or.inl hx
                · simp only [List.mem_singleton] at hx
                  subst hx
                  exact Or.inr ⟨by simp, hmed, hnbv⟩
              · exact Or.inr ⟨List.mem_cons_of_mem nb hx1, hx2, hx3⟩
            · intro hf
              rcases h5 hf with ⟨u, hu, huf⟩
              exact ⟨u, List.mem_cons_of_mem nb hu, huf⟩
            · intro hf x hx
              rcases List.mem_cons.mp hx with hx | hx
              · subst hx; exact hnbv
              · exact h6 hf x hx
            · intro hf x hx hnx
              by_cases hxnb : x = nb
              · subst hxnb; simpa using hunf
              · exact h7 hf x hx (by simp [hxnb, hnx])
            · intro hf x hx hnx hxm
              by_cases hxnb : x = nb
              · subst hxnb
                exact h3 x (by simp)
              · exact h8 hf x hx (by simp [hxnb, hnx]) hxm
            · simp only [List.length_append, List.length_cons, List.length_nil] at h9 ⊢
              omega
            · intro hnd
              exact h10 (List.nodup_cons.mpr ⟨hvis, hnd⟩)
          · rw [if_neg hmed] at h
            obtain ⟨h1, h2, h3, h4, h5, h6, h7, h8, h9, h10⟩ :=
              ih (nb :: visited) acc v' q' fnd h
            have hnbv : nb ∈ v' := h1 nb (by simp)
            refine ⟨?_, ?_, h3, ?_, ?_, ?_, ?_, ?_, ?_, ?_⟩
            · intro x hx; exact h1 x (List.mem_cons_of_mem nb hx)
            · intro x hx
              rcases h2 x hx with hx | hx
              · rcases List.mem_cons.mp hx with hx | hx
                · exact Or.inr (by simp [hx])
                · exact Or.inl hx
              · exact Or.inr (List.mem_cons_of_mem nb hx)
            · intro x hx
              rcases h4 x hx with hx | ⟨hx1, hx2, hx3⟩
              · exact Or.inl hx
              · exact Or.inr ⟨List.mem_cons_of_mem nb hx1, hx2, hx3⟩
            · intro hf
              rcases h5 hf with ⟨u, hu, huf⟩
              exact ⟨u, List.mem_cons_of_mem nb hu, huf⟩
            · intro hf x hx
              rcases List.mem_cons.mp hx with hx | hx
              · subst hx; exact hnbv
              · exact h6 hf x hx
            · intro hf x hx hnx
              by_cases hxnb : x = nb
              · subst hxnb; simpa using hunf
              · exact h7 hf x hx (by simp [hxnb, hnx])
            · intro hf x hx hnx hxm
              by_cases hxnb : x = nb
              · subst hxnb
                rw [hxm] at hmed
                cases hmed rfl
              · exact h8 hf x hx (by simp [hxnb, hnx]) hxm
            · simp only [List.length_cons] at h9 ⊢
              omega
            · intro hnd
              exact h10 (List.nodup_cons.mpr ⟨hvis, hnd⟩)

end TheSu

namespace TheSu

theorem bfsLoop_visited_sub (adj : String → List String) (unf med : String → Bool) :
    ∀ (fuel : Nat) (visited queue : List String),
      visited ⊆ (bfsLoop adj unf med fuel visited queue).2 := by
  intro fuel
  induction fuel with
  | zero => intro visited queue; simp [bfsLoop, List.Subset.refl]
  | succ fuel ih =>
      intro visited queue
      cases queue with
      | nil => simp [bfsLoop, List.Subset.refl]
      | cons curr qrest =>
          simp only [bfsLoop]
          rcases hscan : bfsScan unf med (adj curr) visited [] with ⟨v', newq, fnd⟩
          obtain ⟨h1, _, _, _, _, _, _, _, _, _⟩ := bfsScan_spec unf med _ _ _ _ _ _ hscan
          cases fnd with
          | true =>
              simp only [if_true]
              intro x hx
              exact h1 x hx
          | false =>
              simp only [Bool.false_eq_true, if_false]
              intro x hx
              exact ih v' (qrest ++ newq) (h1 x hx)

theorem bfsLoop_sound (adj : String → List String) (unf med : String → Bool) (f : String) :
    ∀ (fuel : Nat) (visited queue : List String),
      (∀ q ∈ queue, Relation.ReflTransGen (medStep adj med) f q) →
      (bfsLoop adj unf med fuel visited queue).1 = true →
      ∃ c u, Relation.ReflTransGen (medStep adj med) f c ∧ u ∈ adj c ∧ unf u = true := by
  intro fuel
  induction fuel with
  | zero => intro visited queue _ h; simp [bfsLoop] at h
  | succ fuel ih =>
      intro visited queue hq h
      cases queue with
      | nil => simp [bfsLoop] at h
      | cons curr qrest =>
          simp only [bfsLoop] at h
          rcases hscan : bfsScan unf med (adj curr) visited [] with ⟨v', newq, fnd⟩
          rw [hscan] at h
          obtain ⟨_, _, _, h4, h5, _, _, _, _, _⟩ := bfsScan_spec unf med _ _ _ _ _ _ hscan
          cases fnd with
          | true =>
              rcases h5 rfl with ⟨u, hu, huf⟩
              exact ⟨curr, u, hq curr (by simp), hu, huf⟩
          | false =>
              simp only [Bool.false_eq_true, if_false] at h
              refine ih v' (qrest ++ newq) ?_ h
              intro q hqm
              rcases List.mem_append.mp hqm with hqm | hqm
              · exact hq q (List.mem_cons_of_mem curr hqm)
              · rcases h4 q hqm with hqm | ⟨hq1, hq2, _⟩
                · simp at hqm
                · exact Relation.ReflTransGen.tail (hq curr (by simp)) ⟨hq1, hq2⟩

theorem bfsLoop_complete (adj : String → List String) (unf med : String → Bool)
    (U : List String) (hadj : ∀ x y, y ∈ adj x → y ∈ U) (f : String) :
    ∀ (fuel : Nat) (visited queue : List String),
      queue.length + (U.length - visited.length) < fuel →
      visited.Nodup → visited ⊆ U → f ∈ visited →
      (∀ q ∈ queue, q ∈ visited) →
      (∀ q ∈ queue, q = f ∨ med q = true) →
      (∀ v ∈ visited, unf v = false) →
      (∀ v ∈ visited, (v = f ∨ med v = true) →
        v ∈ queue ∨ ∀ nb ∈ adj v, nb ∈ visited) →
      (bfsLoop adj unf med fuel visited queue).1 = false →
      (∀ v ∈ (bfsLoop adj unf med fuel visited queue).2, unf v = false) ∧
      (∀ v ∈ (bfsLoop adj unf med fuel visited queue).2, (v = f ∨ med v = true) →
        ∀ nb ∈ adj v, nb ∈ (bfsLoop adj unf med fuel visited queue).2) := by
  intro fuel
  induction fuel with
  | zero => intro visited queue hm; omega
  | succ fuel ih =>
      intro visited queue hm hnd hsubU hfv hq1 hq2 hv1 hv2 hres
      cases queue with
      | nil =>
          simp only [bfsLoop]
          refine ⟨hv1, ?_⟩
          intro v hv hvm nb hnb
          rcases hv2 v hv hvm with hcon | hclosed
          · simp at hcon
          · exact hclosed nb hnb
      | cons curr qrest =>
          rcases hscan : bfsScan unf med (adj curr) visited [] with ⟨v', newq, fnd⟩
          have hE : bfsLoop adj unf med (fuel + 1) visited (curr :: qrest) =
              (if fnd = true then (true, v')
               else bfsLoop adj unf med fuel v' (qrest ++ newq)) := by
            simp only [bfsLoop]
            rw [hscan]
          rw [hE] at hres ⊢
          obtain ⟨h1, h2, _, h4, _, h6, h7, h8, h9, h10⟩ :=
            bfsScan_spec unf med _ _ _ _ _ _ hscan
          cases fnd with
          | true => simp at hres
          | false =>
              simp only [Bool.false_eq_true, if_false] at hres ⊢
              have hnd' : v'.Nodup := h10 hnd
              have hsubU' : v' ⊆ U := by
                intro x hx
                rcases h2 x hx with hx | hx
                · exact hsubU hx
                · exact hadj curr x hx
              have hlen1 : newq.length + visited.length ≤ v'.length := by
                simpa using h9
              have hlen2 : v'.length ≤ U.length := nodup_subset_length hnd' hsubU'
              have hm' : (qrest ++ newq).length + (U.length - v'.length) < fuel := by
                simp only [List.length_append, List.length_cons] at hm ⊢
                omega
              have hq1' : ∀ q ∈ qrest ++ newq, q ∈ v' := by
                intro q hqm
                rcases List.mem_append.mp hqm with hqm | hqm
                · exact h1 q (hq1 q (List.mem_cons_of_mem curr hqm))
                · rcases h4 q hqm with hqm | ⟨_, _, hq3⟩
                  · simp at hqm
                  · exact hq3
              have hq2' : ∀ q ∈ qrest ++ newq, q = f ∨ med q = true := by
                intro q hqm
                rcases List.mem_append.mp hqm with hqm | hqm
                · exact hq2 q (List.mem_cons_of_mem curr hqm)
                · rcases h4 q hqm with hqm | ⟨_, hq3, _⟩
                  · simp at hqm
                  · exact Or.inr hq3
              have hv1' : ∀ v ∈ v', unf v = false := by
                intro v hv
                by_cases hvin : v ∈ visited
                · exact hv1 v hvin
                · exact h7 rfl v hv hvin
              have hv2' : ∀ v ∈ v', (v = f ∨ med v = true) →
                  v ∈ qrest ++ newq ∨ ∀ nb ∈ adj v, nb ∈ v' := by
                intro v hv hvm
                by_cases hvin : v ∈ visited
                · by_cases hvcurr : v = curr
                  · subst hvcurr
                    exact Or.inr (h6 rfl)
                  · rcases hv2 v hvin hvm with hvq | hclosed
                    · rcases List.mem_cons.mp hvq with hvq | hvq
                      · exact absurd hvq hvcurr
                      · exact Or.inl (List.mem_append.mpr (Or.inl hvq))
                    · exact Or.inr fun nb hnb => h1 nb (hclosed nb hnb)
                · rcases hvm with hvf | hvmed
                  · subst hvf; exact absurd hfv hvin
                  · exact Or.inl (List.mem_append.mpr
                      (Or.inr (h8 rfl v hv hvin hvmed)))
              exact ih v' (qrest ++ newq) hm' hnd' hsubU' (h1 f hfv) hq1' hq2' hv1' hv2' hres

/-- BFS decision = existence of a mediator-only path to an `unf` node. -/
theorem reachesUnfiltered_iff (adj : String → List String) (unf med : String → Bool)
    (U : List String) (hadj : ∀ x y, y ∈ adj x → y ∈ U) (f : String) (hfU : f ∈ U)
    (hf_unf : unf f = false) :
    reachesUnfiltered adj unf med (U.length + 1) f = true ↔
      ∃ c u, Relation.ReflTransGen (medStep adj med) f c ∧ u ∈ adj c ∧ unf u = true := by
  constructor
  · intro h
    exact bfsLoop_sound adj unf med f (U.length + 1) [f] [f]
      (by intro q hq; simp at hq; subst hq; exact Relation.ReflTransGen.refl) h
  · intro ⟨c, u, hchain, hu, huf⟩
    by_contra hcon
    have hres : (bfsLoop adj unf med (U.length + 1) [f] [f]).1 = false := by
      revert hcon
      simp only [reachesUnfiltered]
      cases (bfsLoop adj unf med (U.length + 1) [f] [f]).1 <;> simp
    have hUpos : 0 < U.length := List.length_pos_of_mem hfU
    obtain ⟨hunfree, hclosed⟩ := bfsLoop_complete adj unf med U hadj f (U.length + 1)
      [f] [f]
      (by simp; omega)
      (by simp)
      (by intro x hx; simp at hx; subst hx; exact hfU)
      (by simp)
      (by intro q hq; simp at hq; subst hq; simp)
      (by intro q hq; simp at hq; subst hq; exact Or.inl rfl)
      (by intro v hv; simp at hv; subst hv; exact hf_unf)
      (by intro v hv hvm; simp at hv; subst hv; exact Or.inl (by simp))
      hres
    have hmem : ∀ x, Relation.ReflTransGen (medStep adj med) f x →
        x ∈ (bfsLoop adj unf med (U.length + 1) [f] [f]).2 ∧ (x = f ∨ med x = true) := by
      intro x hx
      induction hx with
      | refl =>
          refine ⟨?_, Or.inl rfl⟩
          exact bfsLoop_visited_sub adj unf med (U.length + 1) [f] [f] (by simp)
      | tail hab hbc ih =>
          rcases ih with ⟨hbmem, hbm⟩
          rcases hbc with ⟨hadjb, hmedb⟩
          exact ⟨hclosed _ hbmem hbm _ hadjb, Or.inr hmedb⟩
    rcases hmem c hchain with ⟨hcmem, hcm⟩
    have humem := hclosed c hcmem hcm u hu
    have := hunfree u humem
    rw [huf] at this
    cases this

end TheSu

namespace TheSu

/-! ## `prune_and_connect_filtered_nodes`
(`src/dot/postprocess/filtered_pruning.py`)

The pass parses the file once, classifies the defined nodes, decides which
filtered nodes to keep (phase 1a, the BFS above), precomputes the
indirect-connection dashed edges from the pre-pruning graph (phase 2),
iteratively discards dangling mediators (phase 1c), removes the pruned
definitions and their incident edges, and finally inserts the dashed edges
before the closing brace and collapses excess blank lines. -/

/-- `defined_nodes` is a Python set: deduplicated. -/
def definedNodesD (lines : List DotLine) : List String :=
  (definedNodes lines).dedup

def filteredNodes (lines : List DotLine) : List String :=
  (definedNodesD lines).filter fun n => strEnds n "_filtered"

def mediatorNodes (lines : List DotLine) : List String :=
  (definedNodesD lines).filter is_mediator_node

def unfilteredNodes (lines : List DotLine) : List String :=
  (definedNodesD lines).filter fun n => !strEnds n "_filtered" && !is_mediator_node n

/-- Phase 1a: the filtered nodes kept because a mediator-only walk reaches an
unfiltered node. -/
def keep_filtered (lines : List DotLine) : List String :=
  (filteredNodes lines).filter fun f =>
    reachesUnfiltered (adjacency (edgeList lines))
      (fun nb => decide (nb ∈ unfilteredNodes lines))
      (fun nb => decide (nb ∈ mediatorNodes lines))
      ((nodeUniverse lines).length + 1) f

def to_remove (lines : List DotLine) : List String :=
  (filteredNodes lines).filter fun f => decide (f ∉ keep_filtered lines)

/-- Phase 2 restricted edge set: both endpoints filtered or mediator. -/
def restrictedEdges (lines : List DotLine) : List (String × String) :=
  (edgeList lines).filter fun e =>
    (decide (e.1 ∈ filteredNodes lines) || decide (e.1 ∈ mediatorNodes lines)) &&
    (decide (e.2 ∈ filteredNodes lines) || decide (e.2 ∈ mediatorNodes lines))

/-- The component-collection BFS of phase 2 (`comp_visited` walk). -/
def compScan : List String → List String → List String → (List String × List String)
  | [], v, a => (v, a)
  | nb :: rest, v, a =>
      if decide (nb ∈ v) then compScan rest v a
      else compScan rest (nb :: v) (a ++ [nb])

def compLoop (adj : String → List String) : Nat → List String → List String → List String
  | 0, visited, _ => visited
  | _ + 1, visited, [] => visited
  | fuel + 1, visited, curr :: qrest =>
      match compScan (adj curr) visited [] with
      | (v', newq) => compLoop adj fuel v' (qrest ++ newq)

/-- The per-component data of phase 2: kept filtered nodes and all filtered
nodes of each connected component of the restricted graph that contains at
least two kept filtered nodes. -/
def componentsKeptGo (radj : String → List String) (filtered keepf : List String)
    (fuel : Nat) :
    List String → List String → List (List String × List String)
  | [], _ => []
  | start :: rest, comp_visited =>
      if decide (start ∈ comp_visited) then
        componentsKeptGo radj filtered keepf fuel rest comp_visited
      else
        let comp := compLoop radj fuel [start] [start]
        let comp_filtered := comp.filter fun n => decide (n ∈ filtered)
        let kept := comp_filtered.filter fun n => decide (n ∈ keepf)
        if 2 ≤ kept.length then
          (kept, comp_filtered) ::
            componentsKeptGo radj filtered keepf fuel rest (comp_visited ++ comp)
        else
          componentsKeptGo radj filtered keepf fuel rest (comp_visited ++ comp)

/-- The inner BFS of phase 2, scanning the neighbours of `curr` that sits at
pruned-count `pc` with `fwd`/`bwd` direction votes, relative to the tree root
`f_node`.  State: inner visited, inner queue, tree visited, tree queue, and
the accumulated indirect edges. -/
def innerScanNbrs (dpairs : List (String × String)) (keptb medb filtb : String → Bool)
    (f_node curr : String) (pc fwd bwd : Nat) :
    List String → List String → List (String × Nat × Nat × Nat) →
    List String → List String → List (String × String × Nat) →
    (List String × List (String × Nat × Nat × Nat) × List String × List String ×
      List (String × String × Nat))
  | [], iv, iq, tv, tq, es => (iv, iq, tv, tq, es)
  | nb :: rest, iv, iq, tv, tq, es =>
      if decide (nb ∈ iv) then
        innerScanNbrs dpairs keptb medb filtb f_node curr pc fwd bwd rest iv iq tv tq es
      else
        let iv' := nb :: iv
        let isf := decide ((curr, nb) ∈ dpairs)
        let nf := fwd + (if isf then 1 else 0)
        let nbw := bwd + (if isf then 0 else 1)
        if keptb nb then
          if decide (nb ∈ tv) then
            innerScanNbrs dpairs keptb medb filtb f_node curr pc fwd bwd rest iv' iq tv tq es
          else
            let es' := es ++ [if nbw ≤ nf then (f_node, nb, pc) else (nb, f_node, pc)]
            innerScanNbrs dpairs keptb medb filtb f_node curr pc fwd bwd rest iv' iq
              (nb :: tv) (tq ++ [nb]) es'
        else if medb nb then
          innerScanNbrs dpairs keptb medb filtb f_node curr pc fwd bwd rest iv'
            (iq ++ [(nb, pc, nf, nbw)]) tv tq es
        else if filtb nb then
          innerScanNbrs dpairs keptb medb filtb f_node curr pc fwd bwd rest iv'
            (iq ++ [(nb, pc + 1, nf, nbw)]) tv tq es
        else
          innerScanNbrs dpairs keptb medb filtb f_node curr pc fwd bwd rest iv' iq tv tq es

def innerLoop (adjm : String → List String) (dpairs : List (String × String))
    (keptb medb filtb : String → Bool) (f_node : String) :
    Nat → List String → List (String × Nat × Nat × Nat) →
    List String → List String → List (String × String × Nat) →
    (List String × List String × List (String × String × Nat))
  | 0, _, _, tv, tq, es => (tv, tq, es)
  | _ + 1, _, [], tv, tq, es => (tv, tq, es)
  | fuel + 1, iv, (cn, pc, fw, bw) :: iqrest, tv, tq, es =>
      match innerScanNbrs dpairs keptb medb filtb f_node cn pc fw bw (adjm cn) iv iqrest
        tv tq es with
      | (iv', iq', tv', tq', es') =>
          innerLoop adjm dpairs keptb medb filtb f_node fuel iv' iq' tv' tq' es'

def treeLoop (adjm : String → List String) (dpairs : List (String × String))
    (keptb medb filtb : String → Bool) (innerFuel : Nat) :
    Nat → List String → List String → List (String × String × Nat) →
    List (String × String × Nat)
  | 0, _, _, es => es
  | _ + 1, _, [], es => es
  | fuel + 1, tv, f_node :: tqrest, es =>
      match innerLoop adjm dpairs keptb medb filtb f_node innerFuel [f_node]
        [(f_node, 0, 0, 0)] tv tqrest es with
      | (tv', tq', es') => treeLoop adjm dpairs keptb medb filtb innerFuel fuel tv' tq' es'

/-- Phase 2 result: the indirect-connection edges `(src, dst, pruned_count)`
computed on the pre-pruning graph. -/
def indirectEdges (lines : List DotLine) : List (String × String × Nat) :=
  if 2 ≤ (keep_filtered lines).length then
    let radj := adjacency (restrictedEdges lines)
    let fuel := (nodeUniverse lines).length + 1
    let comps := componentsKeptGo radj (filteredNodes lines) (keep_filtered lines) fuel
      (filteredNodes lines) []
    comps.flatMap fun comp =>
      match comp.1 with
      | [] => []
      | root :: _ =>
          treeLoop radj (restrictedEdges lines)
            (fun n => decide (n ∈ comp.1))
            (fun n => decide (n ∈ mediatorNodes lines))
            (fun n => decide (n ∈ filteredNodes lines))
            fuel fuel [root] [root] []
  else []

/-- Phase 1c: the adjacency rebuilt at the start of each sweep from the edges
that survive filtered-node pruning and do not touch an already removed
mediator. -/
def post_adj (surv : List (String × String)) (removed : List String)
    (x : String) : List String :=
  adjacency (surv.filter fun e =>
    !(decide (e.1 ∈ removed) || decide (e.2 ∈ removed))) x

/-- The `chain_visited` BFS inside the sweep: collect the distinct real nodes
reachable from `med` through not-yet-removed mediators. -/
def chainScan (realb medb : String → Bool) (removed : List String) :
    List String → List String → List String → List String →
    (List String × List String × List String)
  | [], cv, cq, oreal => (cv, cq, oreal)
  | nb :: rest, cv, cq, oreal =>
      if decide (nb ∈ cv) || decide (nb ∈ removed) then
        chainScan realb medb removed rest cv cq oreal
      else
        let cv' := nb :: cv
        if realb nb then
          let oreal' := if decide (nb ∈ oreal) then oreal else oreal ++ [nb]
          chainScan realb medb removed rest cv' cq oreal'
        else if medb nb then
          chainScan realb medb removed rest cv' (cq ++ [nb]) oreal
        else
          chainScan realb medb removed rest cv' cq oreal

def chainLoop (padj : String → List String) (realb medb : String → Bool)
    (removed : List String) :
    Nat → List String → List String → List String → List String
  | 0, _, _, oreal => oreal
  | _ + 1, _, [], oreal => oreal
  | fuel + 1, cv, cn :: cqrest, oreal =>
      match chainScan realb medb removed (padj cn) cv cqrest oreal with
      | (cv', cq', oreal') => chainLoop padj realb medb removed fuel cv' cq' oreal'

/-- The per-mediator keep check of one sweep: at least two distinct real
neighbours, or exactly one together with a chain of surviving mediators that
reaches at least two distinct real nodes. -/
def keepChk (padj : String → List String) (realb medb : String → Bool)
    (chainFuel : Nat) (removed : List String) (med : String) : Bool :=
  let neighbours := (padj med).dedup
  let real_neighbours := neighbours.filter realb
  let mediator_neighbours := neighbours.filter fun nb =>
    medb nb && decide (nb ∉ removed)
  if 2 ≤ real_neighbours.length then true
  else if real_neighbours.length = 1 && !mediator_neighbours.isEmpty then
    2 ≤ (chainLoop padj realb medb removed chainFuel [med] [med] []).length
  else false

/-- One sweep of the dangling-mediator loop. -/
def sweepMediators (surv : List (String × String)) (realb medb : String → Bool)
    (mediators : List String) (chainFuel : Nat) (removed : List String) : List String :=
  let padj := post_adj surv removed
  (mediators.filter fun m => decide (m ∉ removed)).foldl
    (fun rem m => if keepChk padj realb medb chainFuel rem m then rem else m :: rem)
    removed

def mediatorLoop (surv : List (String × String)) (realb medb : String → Bool)
    (mediators : List String) (chainFuel : Nat) :
    Nat → List String → List String
  | 0, removed => removed
  | fuel + 1, removed =>
      let r := sweepMediators surv realb medb mediators chainFuel removed
      if r.length = removed.length then removed
      else mediatorLoop surv realb medb mediators chainFuel fuel r

/-- The edges surviving phase 1b (filtered-node pruning). -/
def survivingEdges (lines : List DotLine) : List (String × String) :=
  (edgeList lines).filter fun e =>
    !(decide (e.1 ∈ to_remove lines) || decide (e.2 ∈ to_remove lines))

/-- `real_nodes = unfiltered_nodes | keep_filtered`. -/
def realNodesB (lines : List DotLine) (n : String) : Bool :=
  decide (n ∈ unfilteredNodes lines) || decide (n ∈ keep_filtered lines)

def medNodesB (lines : List DotLine) (n : String) : Bool :=
  decide (n ∈ mediatorNodes lines)

def pruneChainFuel (lines : List DotLine) : Nat :=
  (nodeUniverse lines).length + 1

/-- Phase 1c result: the mediators removed by the fixed-point iteration. -/
def removed_mediator_set (lines : List DotLine) : List String :=
  mediatorLoop (survivingEdges lines) (realNodesB lines) (medNodesB lines)
    (mediatorNodes lines) (pruneChainFuel lines)
    ((mediatorNodes lines).length + 1) []

def isCloseBrace : DotLine → Bool
  | .text s => strStrip s == "\x7d"
  | _ => false

/-- Insert `newLines` just before the last closing brace (no-op without one),
mirroring the `closing_idx` search. -/
def insertBeforeLastBrace (lines newLines : List DotLine) : List DotLine :=
  match (lines.reverse.findIdx? isCloseBrace) with
  | none => lines
  | some ridx =>
      let idx := lines.length - 1 - ridx
      lines.take idx ++ newLines ++ lines.drop idx

/-- The dashed indirect-connection edge line for `(src, dst, pruned_count)`. -/
def indirectEdgeLine (e : String × String × Nat) : DotLine :=
  .edge e.1 e.2.1
    ("style=\"dashed\", color=\"#999999\", xlabel=\"" ++
      (if 0 < e.2.2 then "via " ++ Nat.repr e.2.2 ++ " filtered"
       else "indirectly connected") ++
      "\", fontsize=\"9\", fontcolor=\"#999999\"")

/-- `collapse_excess_blank_lines` with the default maximum of one. -/
def collapseGo : Bool → List DotLine → List DotLine
  | _, [] => []
  | prevBlank, .blank :: rest =>
      if prevBlank then collapseGo true rest
      else .blank :: collapseGo true rest
  | _, l :: rest => l :: collapseGo false rest

def collapse_excess_blank_lines (lines : List DotLine) : List DotLine :=
  collapseGo false lines

/-- `all_nodes_to_purge = to_remove | removed_mediator_set`. -/
def purgedNodes (lines : List DotLine) : List String :=
  to_remove lines ++ removed_mediator_set lines

/-- The file after removing purged node definitions and their incident
edges. -/
def pruneBase (lines : List DotLine) : List DotLine :=
  lines.filter fun l =>
    match l with
    | .edge s t _ =>
        !(decide (s ∈ purgedNodes lines) || decide (t ∈ purgedNodes lines))
    | .nodeDef id _ => !decide (id ∈ purgedNodes lines)
    | _ => true

/-- `prune_and_connect_filtered_nodes(dot_filename, elements_to_exclude)`. -/
def prune_and_connect_filtered_nodes (elements_to_exclude : List String)
    (lines : List DotLine) : List DotLine :=
  if elements_to_exclude.isEmpty then lines
  else if (filteredNodes lines).isEmpty then lines
  else
    let ind := indirectEdges lines
    let withInd :=
      if ind.isEmpty then pruneBase lines
      else insertBeforeLastBrace (pruneBase lines)
        (.blank :: ind.flatMap fun e => [indirectEdgeLine e, .blank])
    collapse_excess_blank_lines withInd

end TheSu

namespace TheSu

theorem innerScanNbrs_inv (dpairs : List (String × String))
    (keptb medb filtb : String → Bool) (f_node : String) (hf : keptb f_node = true) :
    ∀ (nbrs iv : List String) (iq : List (String × Nat × Nat × Nat))
      (tv tq : List String) (es : List (String × String × Nat))
      (curr : String) (pc fwd bwd : Nat),
      (∀ e ∈ es, keptb e.1 = true ∧ keptb e.2.1 = true) →
      (∀ x ∈ tq, keptb x = true) →
      (∀ e ∈ (innerScanNbrs dpairs keptb medb filtb f_node curr pc fwd bwd nbrs
          iv iq tv tq es).2.2.2.2, keptb e.1 = true ∧ keptb e.2.1 = true) ∧
      (∀ x ∈ (innerScanNbrs dpairs keptb medb filtb f_node curr pc fwd bwd nbrs
          iv iq tv tq es).2.2.2.1, keptb x = true) := by
  intro nbrs
  induction nbrs with
  | nil =>
      intro iv iq tv tq es curr pc fwd bwd hes htq
      exact ⟨hes, htq⟩
  | cons nb rest ih =>
      intro iv iq tv tq es curr pc fwd bwd hes htq
      simp only [innerScanNbrs]
      by_cases hvis : nb ∈ iv
      · rw [if_pos (by simpa using hvis)]
        exact ih iv iq tv tq es curr pc fwd bwd hes htq
      · rw [if_neg (by simpa using hvis)]
        by_cases hkept : keptb nb = true
        · rw [if_pos hkept]
          by_cases htvm : nb ∈ tv
          · rw [if_pos (by simpa using htvm)]
            exact ih _ iq tv tq es curr pc fwd bwd hes htq
          · rw [if_neg (by simpa using htvm)]
            refine ih _ iq _ _ _ curr pc fwd bwd ?_ ?_
            · intro e he
              rcases List.mem_append.mp he with he | he
              · exact hes e he
              · simp only [List.mem_singleton] at he
                subst he
                split
                · split
                  · exact ⟨hf, hkept⟩
                  · exact ⟨hkept, hf⟩
                · split
                  · exact ⟨hf, hkept⟩
                  · exact ⟨hkept, hf⟩
            · intro x hx
              rcases List.mem_append.mp hx with hx | hx
              · exact htq x hx
              · simp only [List.mem_singleton] at hx
                subst hx
                exact hkept
        · rw [if_neg hkept]
          by_cases hmed : medb nb = true
          · rw [if_pos hmed]
            exact ih _ _ tv tq es curr pc fwd bwd hes htq
          · rw [if_neg hmed]
            by_cases hfil : filtb nb = true
            · rw [if_pos hfil]
              exact ih _ _ tv tq es curr pc fwd bwd hes htq
            · rw [if_neg hfil]
              exact ih _ iq tv tq es curr pc fwd bwd hes htq

theorem innerLoop_inv (adjm : String → List String) (dpairs : List (String × String))
    (keptb medb filtb : String → Bool) (f_node : String) (hf : keptb f_node = true) :
    ∀ (fuel : Nat) (iv : List String) (iq : List (String × Nat × Nat × Nat))
      (tv tq : List String) (es : List (String × String × Nat)),
      (∀ e ∈ es, keptb e.1 = true ∧ keptb e.2.1 = true) →
      (∀ x ∈ tq, keptb x = true) →
      (∀ e ∈ (innerLoop adjm dpairs keptb medb filtb f_node fuel iv iq tv tq es).2.2,
        keptb e.1 = true ∧ keptb e.2.1 = true) ∧
      (∀ x ∈ (innerLoop adjm dpairs keptb medb filtb f_node fuel iv iq tv tq es).2.1,
        keptb x = true) := by
  intro fuel
  induction fuel with
  | zero => intro iv iq tv tq es hes htq; exact ⟨hes, htq⟩
  | succ fuel ih =>
      intro iv iq tv tq es hes htq
      cases iq with
      | nil => exact ⟨hes, htq⟩
      | cons entry iqrest =>
          rcases entry with ⟨cn, pc, fw, bw⟩
          simp only [innerLoop]
          rcases hscan : innerScanNbrs dpairs keptb medb filtb f_node cn pc fw bw
            (adjm cn) iv iqrest tv tq es with ⟨iv', iq', tv', tq', es'⟩
          obtain ⟨hes', htq'⟩ := by
            have := innerScanNbrs_inv dpairs keptb medb filtb f_node hf
              (adjm cn) iv iqrest tv tq es cn pc fw bw hes htq
            rw [hscan] at this
            exact this
          exact ih iv' iq' tv' tq' es' hes' htq'

theorem treeLoop_inv (adjm : String → List String) (dpairs : List (String × String))
    (keptb medb filtb : String → Bool) (innerFuel : Nat) :
    ∀ (fuel : Nat) (tv tq : List String) (es : List (String × String × Nat)),
      (∀ e ∈ es, keptb e.1 = true ∧ keptb e.2.1 = true) →
      (∀ x ∈ tq, keptb x = true) →
      ∀ e ∈ treeLoop adjm dpairs keptb medb filtb innerFuel fuel tv tq es,
        keptb e.1 = true ∧ keptb e.2.1 = true := by
  intro fuel
  induction fuel with
  | zero => intro tv tq es hes _; exact hes
  | succ fuel ih =>
      intro tv tq es hes htq
      cases tq with
      | nil => exact hes
      | cons f_node tqrest =>
          simp only [treeLoop]
          have hf : keptb f_node = true := htq f_node (by simp)
          rcases hloop : innerLoop adjm dpairs keptb medb filtb f_node innerFuel
            [f_node] [(f_node, 0, 0, 0)] tv tqrest es with ⟨tv', tq', es'⟩
          obtain ⟨hes', htq'⟩ := by
            have := innerLoop_inv adjm dpairs keptb medb filtb f_node hf innerFuel
              [f_node] [(f_node, 0, 0, 0)] tv tqrest es hes
              (fun x hx => htq x (List.mem_cons_of_mem f_node hx))
            rw [hloop] at this
            exact this
          exact ih tv' tq' es' hes' htq'

theorem componentsKeptGo_kept (radj : String → List String)
    (filtered keepf : List String) (fuel : Nat) :
    ∀ (starts cv : List String) (c : List String × List String),
      c ∈ componentsKeptGo radj filtered keepf fuel starts cv →
      ∀ x ∈ c.1, x ∈ keepf := by
  intro starts
  induction starts with
  | nil => intro cv c hc; simp [componentsKeptGo] at hc
  | cons start rest ih =>
      intro cv c hc
      simp only [componentsKeptGo] at hc
      by_cases hvis : start ∈ cv
      · rw [if_pos (by simpa using hvis)] at hc
        exact ih cv c hc
      · rw [if_neg (by simpa using hvis)] at hc
        split at hc
        · rcases List.mem_cons.mp hc with hc | hc
          · subst hc
            intro x hx
            simp only [List.mem_filter] at hx
            simpa using hx.2
          · exact ih _ c hc
        · exact ih _ c hc

/-- Every synthesized indirect-connection edge joins two kept filtered
nodes. -/
theorem indirectEdges_endpoints (lines : List DotLine) :
    ∀ e ∈ indirectEdges lines,
      e.1 ∈ keep_filtered lines ∧ e.2.1 ∈ keep_filtered lines := by
  intro e he
  simp only [indirectEdges] at he
  split at he
  · rcases List.mem_flatMap.mp he with ⟨comp, hcomp, hecomp⟩
    have hkept := componentsKeptGo_kept
      (adjacency (restrictedEdges lines)) (filteredNodes lines) (keep_filtered lines)
      ((nodeUniverse lines).length + 1) (filteredNodes lines) [] comp hcomp
    rcases hroot : comp.1 with _ | ⟨root, krest⟩
    · rw [hroot] at hecomp
      simp at hecomp
    · rw [hroot] at hecomp
      have hTL := treeLoop_inv (adjacency (restrictedEdges lines)) (restrictedEdges lines)
        (fun n => decide (n ∈ root :: krest))
        (fun n => decide (n ∈ mediatorNodes lines))
        (fun n => decide (n ∈ filteredNodes lines))
        ((nodeUniverse lines).length + 1) ((nodeUniverse lines).length + 1)
        [root] [root] [] (by simp)
        (by
          intro x hx
          simp only [List.mem_singleton] at hx
          subst hx
          simp)
        e hecomp
      refine ⟨hkept e.1 ?_, hkept e.2.1 ?_⟩
      · rw [hroot]
        simpa using hTL.1
      · rw [hroot]
        simpa using hTL.2
  · simp at he

theorem collapseGo_sub :
    ∀ (b : Bool) (ls : List DotLine) (x : DotLine), x ∈ collapseGo b ls → x ∈ ls := by
  intro b ls
  induction ls generalizing b with
  | nil => intro x hx; simp [collapseGo] at hx
  | cons l rest ih =>
      intro x hx
      cases l with
      | blank =>
          simp only [collapseGo] at hx
          split at hx
          · exact List.mem_cons_of_mem _ (ih true x hx)
          · rcases List.mem_cons.mp hx with hx | hx
            · simp [hx]
            · exact List.mem_cons_of_mem _ (ih true x hx)
      | nodeDef id attrs =>
          simp only [collapseGo] at hx
          rcases List.mem_cons.mp hx with hx | hx
          · simp [hx]
          · exact List.mem_cons_of_mem _ (ih false x hx)
      | edge s t attrs =>
          simp only [collapseGo] at hx
          rcases List.mem_cons.mp hx with hx | hx
          · simp [hx]
          · exact List.mem_cons_of_mem _ (ih false x hx)
      | text s =>
          simp only [collapseGo] at hx
          rcases List.mem_cons.mp hx with hx | hx
          · simp [hx]
          · exact List.mem_cons_of_mem _ (ih false x hx)

theorem collapseGo_mem :
    ∀ (b : Bool) (ls : List DotLine) (x : DotLine), x ∈ ls → x ≠ .blank →
      x ∈ collapseGo b ls := by
  intro b ls
  induction ls generalizing b with
  | nil => intro x hx; simp at hx
  | cons l rest ih =>
      intro x hx hnb
      have hsplit := List.mem_cons.mp hx
      cases l with
      | blank =>
          have hx2 : x ∈ rest := by
            rcases hsplit with h | h
            · exact absurd h hnb
            · exact h
          simp only [collapseGo]
          split
          · exact ih true x hx2 hnb
          · exact List.mem_cons_of_mem _ (ih true x hx2 hnb)
      | nodeDef id attrs =>
          rcases hsplit with h | h
          · subst h
            simp [collapseGo]
          · exact List.mem_cons_of_mem _ (ih false x h hnb)
      | edge s t attrs =>
          rcases hsplit with h | h
          · subst h
            simp [collapseGo]
          · exact List.mem_cons_of_mem _ (ih false x h hnb)
      | text s =>
          rcases hsplit with h | h
          · subst h
            simp [collapseGo]
          · exact List.mem_cons_of_mem _ (ih false x h hnb)

theorem insertBeforeLastBrace_mem_or {a b : List DotLine} {x : DotLine}
    (h : x ∈ insertBeforeLastBrace a b) : x ∈ a ∨ x ∈ b := by
  simp only [insertBeforeLastBrace] at h
  rcases hfind : a.reverse.findIdx? isCloseBrace with _ | ridx
  · rw [hfind] at h
    exact Or.inl h
  · rw [hfind] at h
    rcases List.mem_append.mp h with h1 | h1
    · rcases List.mem_append.mp h1 with h2 | h2
      · exact Or.inl (List.take_subset _ _ h2)
      · exact Or.inr h2
    · exact Or.inl (List.drop_subset _ _ h1)

theorem insertBeforeLastBrace_mem_left {a b : List DotLine} {x : DotLine}
    (h : x ∈ a) : x ∈ insertBeforeLastBrace a b := by
  simp only [insertBeforeLastBrace]
  rcases hfind : a.reverse.findIdx? isCloseBrace with _ | ridx
  · exact h
  · have := List.take_append_drop (a.length - 1 - ridx) a
    rw [← this] at h
    rcases List.mem_append.mp h with h1 | h1
    · exact List.mem_append.mpr (Or.inl (List.mem_append.mpr (Or.inl h1)))
    · exact List.mem_append.mpr (Or.inr h1)

end TheSu

namespace TheSu

theorem foldl_prepend_spec (g : List String → String → Bool) :
    ∀ (l rem : List String), l.Nodup →
      ∃ pre, List.foldl (fun rem m => if g rem m then rem else m :: rem) rem l =
          pre ++ rem ∧ (∀ x ∈ pre, x ∈ l) ∧ pre.Nodup := by
  intro l
  induction l with
  | nil => intro rem _; exact ⟨[], rfl, by simp, List.nodup_nil⟩
  | cons m rest ih =>
      intro rem hnd
      have hnd' := List.nodup_cons.mp hnd
      simp only [List.foldl_cons]
      by_cases hg : g rem m = true
      · rw [if_pos hg]
        rcases ih rem hnd'.2 with ⟨pre, heq, hmem, hprend⟩
        exact ⟨pre, heq, fun x hx => List.mem_cons_of_mem m (hmem x hx), hprend⟩
      · rw [if_neg hg]
        rcases ih (m :: rem) hnd'.2 with ⟨pre, heq, hmem, hprend⟩
        refine ⟨pre ++ [m], by simpa using heq, ?_, ?_⟩
        · intro x hx
          rcases List.mem_append.mp hx with hx | hx
          · exact List.mem_cons_of_mem m (hmem x hx)
          · simp only [List.mem_singleton] at hx
            simp [hx]
        · rw [List.nodup_append]
          refine ⟨hprend, List.nodup_singleton m, ?_⟩
          intro x hx hxm
          simp only [List.mem_singleton] at hxm
          subst hxm
          exact hnd'.1 (hmem x hx)

theorem foldl_nochange (g : List String → String → Bool) :
    ∀ (l rem : List String), l.Nodup →
      List.foldl (fun rem m => if g rem m then rem else m :: rem) rem l = rem →
      ∀ m ∈ l, g rem m = true := by
  intro l
  induction l with
  | nil => intro rem _ _ m hm; simp at hm
  | cons m0 rest ih =>
      intro rem hnd hfold m hm
      have hnd' := List.nodup_cons.mp hnd
      simp only [List.foldl_cons] at hfold
      by_cases hg : g rem m0 = true
      · rw [if_pos hg] at hfold
        rcases List.mem_cons.mp hm with hm | hm
        · subst hm; exact hg
        · exact ih rem hnd'.2 hfold m hm
      · rw [if_neg hg] at hfold
        exfalso
        rcases foldl_prepend_spec g rest (m0 :: rem) hnd'.2 with ⟨pre, heq, _, _⟩
        rw [heq] at hfold
        have := congrArg List.length hfold
        simp only [List.length_append, List.length_cons] at this
        omega

theorem sweepMediators_spec (surv : List (String × String)) (realb medb : String → Bool)
    (mediators : List String) (chainFuel : Nat) (removed : List String)
    (hmednd : mediators.Nodup) :
    ∃ pre, sweepMediators surv realb medb mediators chainFuel removed = pre ++ removed ∧
      (∀ x ∈ pre, x ∈ mediators ∧ x ∉ removed) ∧ pre.Nodup := by
  have hfilnd : (mediators.filter fun m => decide (m ∉ removed)).Nodup :=
    List.Nodup.filter _ hmednd
  rcases foldl_prepend_spec
    (fun rem m => keepChk (post_adj surv removed) realb medb chainFuel rem m)
    (mediators.filter fun m => decide (m ∉ removed)) removed hfilnd with
    ⟨pre, heq, hmem, hnd⟩
  refine ⟨pre, heq, ?_, hnd⟩
  intro x hx
  have := hmem x hx
  simp only [List.mem_filter, decide_eq_true_eq] at this
  exact this

theorem sweepMediators_nochange (surv : List (String × String))
    (realb medb : String → Bool) (mediators : List String) (chainFuel : Nat)
    (removed : List String) (hmednd : mediators.Nodup)
    (h : sweepMediators surv realb medb mediators chainFuel removed = removed) :
    ∀ m ∈ mediators, m ∉ removed →
      keepChk (post_adj surv removed) realb medb chainFuel removed m = true := by
  intro m hm hnr
  have hfilnd : (mediators.filter fun m => decide (m ∉ removed)).Nodup :=
    List.Nodup.filter _ hmednd
  refine foldl_nochange _ _ removed hfilnd h m ?_
  simp only [List.mem_filter, decide_eq_true_eq]
  exact ⟨hm, hnr⟩

theorem mediatorLoop_sub_nodup (surv : List (String × String))
    (realb medb : String → Bool) (mediators : List String) (chainFuel : Nat)
    (hmednd : mediators.Nodup) :
    ∀ (fuel : Nat) (removed : List String), removed.Nodup → removed ⊆ mediators →
      (mediatorLoop surv realb medb mediators chainFuel fuel removed).Nodup ∧
      mediatorLoop surv realb medb mediators chainFuel fuel removed ⊆ mediators := by
  intro fuel
  induction fuel with
  | zero => intro removed hnd hsub; exact ⟨hnd, hsub⟩
  | succ fuel ih =>
      intro removed hnd hsub
      simp only [mediatorLoop]
      rcases sweepMediators_spec surv realb medb mediators chainFuel removed hmednd with
        ⟨pre, heq, hmem, hprend⟩
      split
      · exact ⟨hnd, hsub⟩
      · refine ih _ ?_ ?_
        · rw [heq, List.nodup_append]
          refine ⟨hprend, hnd, ?_⟩
          intro x hx hxr
          exact (hmem x hx).2 hxr
        · rw [heq]
          intro x hx
          rcases List.mem_append.mp hx with hx | hx
          · exact (hmem x hx).1
          · exact hsub hx

theorem mediatorLoop_fix (surv : List (String × String)) (realb medb : String → Bool)
    (mediators : List String) (chainFuel : Nat) (hmednd : mediators.Nodup) :
    ∀ (fuel : Nat) (removed : List String), removed.Nodup → removed ⊆ mediators →
      mediators.length + 1 ≤ fuel + removed.length →
      sweepMediators surv realb medb mediators chainFuel
          (mediatorLoop surv realb medb mediators chainFuel fuel removed) =
        mediatorLoop surv realb medb mediators chainFuel fuel removed := by
  intro fuel
  induction fuel with
  | zero =>
      intro removed hnd hsub hlen
      have := nodup_subset_length hnd hsub
      omega
  | succ fuel ih =>
      intro removed hnd hsub hlen
      simp only [mediatorLoop]
      rcases sweepMediators_spec surv realb medb mediators chainFuel removed hmednd with
        ⟨pre, heq, hmem, hprend⟩
      by_cases hc : (sweepMediators surv realb medb mediators chainFuel removed).length
          = removed.length
      · rw [if_pos hc]
        have hpre : pre = [] := by
          have := congrArg List.length heq
          rw [hc] at this
          simp only [List.length_append] at this
          have : pre.length = 0 := by omega
          exact List.length_eq_zero.mp this
        rw [heq, hpre, List.nil_append]
      · rw [if_neg hc]
        have hlen2 : removed.length <
            (sweepMediators surv realb medb mediators chainFuel removed).length := by
          have := congrArg List.length heq
          simp only [List.length_append] at this
          omega
        refine ih _ ?_ ?_ ?_
        · rw [heq, List.nodup_append]
          refine ⟨hprend, hnd, ?_⟩
          intro x hx hxr
          exact (hmem x hx).2 hxr
        · rw [heq]
          intro x hx
          rcases List.mem_append.mp hx with hx | hx
          · exact (hmem x hx).1
          · exact hsub hx
        · omega

theorem mediatorNodes_nodup (lines : List DotLine) : (mediatorNodes lines).Nodup :=
  List.Nodup.filter _ (List.nodup_dedup _)

theorem removed_mediator_subset (lines : List DotLine) :
    removed_mediator_set lines ⊆ mediatorNodes lines := by
  have := mediatorLoop_sub_nodup (survivingEdges lines) (realNodesB lines)
    (medNodesB lines) (mediatorNodes lines) (pruneChainFuel lines)
    (mediatorNodes_nodup lines) ((mediatorNodes lines).length + 1) []
    List.nodup_nil (by simp)
  exact this.2

end TheSu

namespace TheSu

/-! ### C3: soundness of the phase 1a keep decision inside the whole pass. -/

theorem mem_definedNodesD (lines : List DotLine) (n : String)
    (h : n ∈ definedNodesD lines) : ∃ attrs, DotLine.nodeDef n attrs ∈ lines := by
  simp only [definedNodesD, List.mem_dedup, definedNodes, List.mem_filterMap] at h
  rcases h with ⟨l, hl, hsome⟩
  cases l with
  | nodeDef i a =>
      simp only [Option.some.injEq] at hsome
      subst hsome
      exact ⟨a, hl⟩
  | edge s t a => simp at hsome
  | blank => simp at hsome
  | text s => simp at hsome

theorem prune_run (lines : List DotLine) (exclude : List String)
    (hexb : exclude.isEmpty = false)
    (hfne : (filteredNodes lines).isEmpty = false) :
    prune_and_connect_filtered_nodes exclude lines =
      collapse_excess_blank_lines
        (if (indirectEdges lines).isEmpty then pruneBase lines
         else insertBeforeLastBrace (pruneBase lines)
           (.blank :: (indirectEdges lines).flatMap
              fun e => [indirectEdgeLine e, .blank])) := by
  simp [prune_and_connect_filtered_nodes, hexb, hfne]

theorem prune_mem_cases (lines : List DotLine) (exclude : List String)
    (hexb : exclude.isEmpty = false)
    (hfne : (filteredNodes lines).isEmpty = false) (x : DotLine)
    (hx : x ∈ prune_and_connect_filtered_nodes exclude lines) :
    x ∈ pruneBase lines ∨ x = .blank ∨
      ∃ e ∈ indirectEdges lines, x = indirectEdgeLine e := by
  rw [prune_run lines exclude hexb hfne] at hx
  have hx1 := collapseGo_sub false _ x hx
  split at hx1
  · exact Or.inl hx1
  · rcases insertBeforeLastBrace_mem_or hx1 with h | h
    · exact Or.inl h
    · rcases List.mem_cons.mp h with h | h
      · exact Or.inr (Or.inl h)
      · rcases List.mem_flatMap.mp h with ⟨e, he, hxe⟩
        simp only [List.mem_cons, List.mem_singleton, List.not_mem_nil,
          or_false] at hxe
        rcases hxe with h2 | h2
        · exact Or.inr (Or.inr ⟨e, he, h2⟩)
        · exact Or.inr (Or.inl h2)

theorem prune_mem_base (lines : List DotLine) (exclude : List String)
    (hexb : exclude.isEmpty = false)
    (hfne : (filteredNodes lines).isEmpty = false) (x : DotLine)
    (hxb : x ∈ pruneBase lines) (hnb : x ≠ .blank) :
    x ∈ prune_and_connect_filtered_nodes exclude lines := by
  rw [prune_run lines exclude hexb hfne]
  apply collapseGo_mem false _ x _ hnb
  split
  · exact hxb
  · exact insertBeforeLastBrace_mem_left hxb

theorem filteredNodes_not_unfiltered (lines : List DotLine) (f : String)
    (hf : f ∈ filteredNodes lines) : f ∉ unfilteredNodes lines := by
  intro hmem
  have h1 := (List.mem_filter.mp hf).2
  have h2 := (List.mem_filter.mp hmem).2
  simp only [Bool.and_eq_true, Bool.not_eq_true'] at h2
  rw [h2.1] at h1
  cases h1

theorem unkept_purged (lines : List DotLine) (f : String)
    (hf : f ∈ filteredNodes lines) (hk : f ∉ keep_filtered lines) :
    f ∈ purgedNodes lines :=
  List.mem_append.mpr (Or.inl (List.mem_filter.mpr
    ⟨hf, by simp only [decide_eq_true_eq]; exact hk⟩))

theorem kept_not_purged (lines : List DotLine) (f : String)
    (hf : f ∈ filteredNodes lines) (hk : f ∈ keep_filtered lines)
    (hnoamb : ∀ n ∈ definedNodesD lines,
      ¬(strEnds n "_filtered" = true ∧ is_mediator_node n = true)) :
    f ∉ purgedNodes lines := by
  intro hmem
  rcases List.mem_append.mp hmem with h | h
  · have := (List.mem_filter.mp h).2
    simp only [decide_eq_true_eq] at this
    exact this hk
  · have hmed := removed_mediator_subset lines h
    have h1 := List.mem_filter.mp hf
    have h2 := List.mem_filter.mp hmed
    exact hnoamb f h1.1 ⟨h1.2, h2.2⟩

end TheSu

namespace TheSu

/-- **C3.** During exclusion connectivity pruning, a filtered placeholder
node is kept if and only if, in the pre-pruning graph, a walk from it through
mediator nodes only reaches at least one real (non-filtered, non-mediator)
node; every filtered node with no such walk is discarded together with its
incident edges, and every kept filtered node retains a definition line
(assuming a nonempty exclusion list and that no defined node id is
simultaneously filtered-named and mediator-named). -/
theorem C3_pruning_soundness (lines : List DotLine) (exclude : List String)
    (hex : exclude ≠ []) (f : String) (hf : f ∈ filteredNodes lines)
    (hnoamb : ∀ n ∈ definedNodesD lines,
      ¬(strEnds n "_filtered" = true ∧ is_mediator_node n = true)) :
    (f ∈ keep_filtered lines ↔
      ∃ c u, Relation.ReflTransGen
          (fun a b => b ∈ adjacency (edgeList lines) a ∧ b ∈ mediatorNodes lines)
          f c ∧
        u ∈ adjacency (edgeList lines) c ∧ u ∈ unfilteredNodes lines) ∧
    (f ∉ keep_filtered lines →
      (∀ attrs,
        DotLine.nodeDef f attrs ∉ prune_and_connect_filtered_nodes exclude lines) ∧
      (∀ s t attrs,
        DotLine.edge s t attrs ∈ prune_and_connect_filtered_nodes exclude lines →
          s ≠ f ∧ t ≠ f)) ∧
    (f ∈ keep_filtered lines →
      ∃ attrs,
        DotLine.nodeDef f attrs ∈ prune_and_connect_filtered_nodes exclude lines) := by
  have hexb : exclude.isEmpty = false := by
    cases exclude with
    | nil => exact absurd rfl hex
    | cons a l => rfl
  have hfne : (filteredNodes lines).isEmpty = false := by
    cases hcase : filteredNodes lines with
    | nil => rw [hcase] at hf; simp at hf
    | cons a l => rfl
  have hfd : f ∈ definedNodesD lines := (List.mem_filter.mp hf).1
  have hfU : f ∈ nodeUniverse lines := by
    refine List.mem_append.mpr (Or.inl ?_)
    have := hfd
    simp only [definedNodesD, List.mem_dedup] at this
    exact this
  have hnunf : f ∉ unfilteredNodes lines := filteredNodes_not_unfiltered lines f hf
  have hf_unf : (fun nb => decide (nb ∈ unfilteredNodes lines)) f = false := by
    simp [hnunf]
  have hmemk : f ∈ keep_filtered lines ↔
      reachesUnfiltered (adjacency (edgeList lines))
        (fun nb => decide (nb ∈ unfilteredNodes lines))
        (fun nb => decide (nb ∈ mediatorNodes lines))
        ((nodeUniverse lines).length + 1) f = true := by
    constructor
    · intro h; exact (List.mem_filter.mp h).2
    · intro h; exact List.mem_filter.mpr ⟨hf, h⟩
  have hiff := reachesUnfiltered_iff (adjacency (edgeList lines))
    (fun nb => decide (nb ∈ unfilteredNodes lines))
    (fun nb => decide (nb ∈ mediatorNodes lines))
    (nodeUniverse lines) (adjacency_subset_universe lines) f hfU hf_unf
  have hA : f ∈ keep_filtered lines ↔
      ∃ c u, Relation.ReflTransGen
          (fun a b => b ∈ adjacency (edgeList lines) a ∧ b ∈ mediatorNodes lines)
          f c ∧
        u ∈ adjacency (edgeList lines) c ∧ u ∈ unfilteredNodes lines := by
    rw [hmemk, hiff]
    constructor
    · rintro ⟨c, u, hchain, hu, huf⟩
      refine ⟨c, u, hchain.mono fun a b hab => ?_, hu, by simpa using huf⟩
      exact ⟨hab.1, by simpa using hab.2⟩
    · rintro ⟨c, u, hchain, hu, huf⟩
      refine ⟨c, u, hchain.mono fun a b hab => ?_, hu, by simpa using huf⟩
      exact ⟨hab.1, by simpa using hab.2⟩
  refine ⟨hA, ?_, ?_⟩
  · intro hnk
    have hpurged : f ∈ purgedNodes lines := unkept_purged lines f hf hnk
    constructor
    · intro attrs hmem
      rcases prune_mem_cases lines exclude hexb hfne _ hmem with h | h | h
      · have h2 : (!decide (f ∈ purgedNodes lines)) = true :=
          (List.mem_filter.mp h).2
        simp only [Bool.not_eq_true', decide_eq_false_iff_not] at h2
        exact h2 hpurged
      · cases h
      · rcases h with ⟨e, he, heq⟩
        simp only [indirectEdgeLine] at heq
        cases heq
    · intro s t attrs hmem
      rcases prune_mem_cases lines exclude hexb hfne _ hmem with h | h | h
      · have h2 : (!(decide (s ∈ purgedNodes lines) ||
            decide (t ∈ purgedNodes lines))) = true :=
          (List.mem_filter.mp h).2
        simp only [Bool.not_eq_true', Bool.or_eq_false_iff,
          decide_eq_false_iff_not] at h2
        exact ⟨fun hsf => h2.1 (hsf ▸ hpurged), fun htf => h2.2 (htf ▸ hpurged)⟩
      · cases h
      · rcases h with ⟨e, he, heq⟩
        have hend := indirectEdges_endpoints lines e he
        simp only [indirectEdgeLine] at heq
        injection heq with h1 h2 h3
        subst h1
        subst h2
        exact ⟨fun hsf => hnk (hsf ▸ hend.1), fun htf => hnk (htf ▸ hend.2)⟩
  · intro hk
    rcases mem_definedNodesD lines f hfd with ⟨attrs, hdef⟩
    refine ⟨attrs, prune_mem_base lines exclude hexb hfne _ ?_ ?_⟩
    · refine List.mem_filter.mpr ⟨hdef, ?_⟩
      show (!decide (f ∈ purgedNodes lines)) = true
      simp only [Bool.not_eq_true', decide_eq_false_iff_not]
      exact kept_not_purged lines f hf hk hnoamb
    · exact fun h => DotLine.noConfusion h

/-- A three-node input exercising the pruning pass: a filtered node reaching
a real node through one mediator. -/
def c3Lines : List DotLine :=
  [.text "digraph \x7b",
   .nodeDef "A_filtered" "label=q",
   .nodeDef "A_to_B_1" "shape=point",
   .nodeDef "B" "label=b",
   .edge "A_filtered" "A_to_B_1" "",
   .edge "A_to_B_1" "B" "",
   .text "\x7d"]

theorem C3_pruning_soundness_witness :
    (["q"] ≠ ([] : List String)) ∧ "A_filtered" ∈ filteredNodes c3Lines ∧
    ∃ attrs, DotLine.nodeDef "A_filtered" attrs ∈
      prune_and_connect_filtered_nodes ["q"] c3Lines :=
  ⟨by decide, by decide,
   (C3_pruning_soundness c3Lines ["q"] (by decide) "A_filtered" (by decide)
      (by decide)).2.2 (by decide)⟩

end TheSu

namespace TheSu

/-! ### C4: the mediator-discard fixed point. -/

/-- A mediator chain `r1 - A_to_B_1 - B_to_C_1 - C_to_D_1 - r2` between two
real nodes, plus a filtered node attached to `r1`. -/
def c4Lines : List DotLine :=
  [.text "digraph \x7b",
   .nodeDef "r1" "label=r1",
   .nodeDef "r2" "label=r2",
   .nodeDef "F1_filtered" "label=f",
   .nodeDef "A_to_B_1" "shape=point",
   .nodeDef "B_to_C_1" "shape=point",
   .nodeDef "C_to_D_1" "shape=point",
   .edge "F1_filtered" "r1" "",
   .edge "r1" "A_to_B_1" "",
   .edge "A_to_B_1" "B_to_C_1" "",
   .edge "B_to_C_1" "C_to_D_1" "",
   .edge "C_to_D_1" "r2" "",
   .text "\x7d"]

/-- A single mediator directly bridging two real nodes. -/
def c4bLines : List DotLine :=
  [.text "digraph \x7b",
   .nodeDef "r1" "label=r1",
   .nodeDef "M_to_N_1" "shape=point",
   .nodeDef "r2" "label=r2",
   .edge "r1" "M_to_N_1" "",
   .edge "M_to_N_1" "r2" "",
   .text "\x7d"]

/-- The interior mediator `B_to_C_1` lies on a surviving-edge chain between
the real nodes `r1` and `r2`, yet the fixed-point iteration discards it (it
has no direct real neighbour, and the sweep only consults mediator chains
when a mediator has exactly one direct real neighbour); the claim that no
chain mediator between two real nodes is discarded therefore fails. -/
theorem C4_mediator_fixpoint_cex :
    "B_to_C_1" ∈ mediatorNodes c4Lines ∧
    ("r1", "A_to_B_1") ∈ survivingEdges c4Lines ∧
    ("A_to_B_1", "B_to_C_1") ∈ survivingEdges c4Lines ∧
    ("B_to_C_1", "C_to_D_1") ∈ survivingEdges c4Lines ∧
    ("C_to_D_1", "r2") ∈ survivingEdges c4Lines ∧
    realNodesB c4Lines "r1" = true ∧ realNodesB c4Lines "r2" = true ∧
    medNodesB c4Lines "A_to_B_1" = true ∧ medNodesB c4Lines "C_to_D_1" = true ∧
    "B_to_C_1" ∈ removed_mediator_set c4Lines := by decide

/-- **C4 (amended).** The mediator-discard iteration reaches a genuine fixed
point: the removed set consists of mediator nodes only, and every surviving
mediator passes the final sweep's keep check — at least two distinct direct
real-or-kept-filtered neighbours, or exactly one such neighbour together
with a chain of surviving mediators reaching at least two distinct real
nodes.  (A mediator with no direct real neighbour is discarded even when it
lies on a chain between two real nodes.) -/
theorem C4_mediator_fixpoint (lines : List DotLine) :
    removed_mediator_set lines ⊆ mediatorNodes lines ∧
    ∀ m ∈ mediatorNodes lines, m ∉ removed_mediator_set lines →
      keepChk (post_adj (survivingEdges lines) (removed_mediator_set lines))
        (realNodesB lines) (medNodesB lines) (pruneChainFuel lines)
        (removed_mediator_set lines) m = true := by
  refine ⟨removed_mediator_subset lines, ?_⟩
  intro m hm hnr
  have hfix := mediatorLoop_fix (survivingEdges lines) (realNodesB lines)
    (medNodesB lines) (mediatorNodes lines) (pruneChainFuel lines)
    (mediatorNodes_nodup lines) ((mediatorNodes lines).length + 1) []
    List.nodup_nil (by simp) (by simp)
  exact sweepMediators_nochange (survivingEdges lines) (realNodesB lines)
    (medNodesB lines) (mediatorNodes lines) (pruneChainFuel lines)
    (removed_mediator_set lines) (mediatorNodes_nodup lines) hfix m hm hnr

theorem C4_mediator_fixpoint_witness :
    ("M_to_N_1" ∈ mediatorNodes c4bLines ∧
      "M_to_N_1" ∉ removed_mediator_set c4bLines) ∧
    keepChk (post_adj (survivingEdges c4bLines) (removed_mediator_set c4bLines))
      (realNodesB c4bLines) (medNodesB c4bLines) (pruneChainFuel c4bLines)
      (removed_mediator_set c4bLines) "M_to_N_1" = true :=
  ⟨⟨by decide, by decide⟩,
   (C4_mediator_fixpoint c4bLines).2 "M_to_N_1" (by decide) (by decide)⟩

end TheSu

namespace TheSu

/-! ### C9: `remove_duplicate_definitions`
(`src/dot/postprocess/deduplication.py`).  The pass keeps the first
occurrence of every line whose stripped form starts with a double quote,
keyed on the stripped form, and keeps all other lines unconditionally. -/

def dedupGo (seen : List String) : List String → List String
  | [] => []
  | line :: rest =>
      if strStarts (strStrip line) "\"" then
        if strStrip line ∈ seen then dedupGo seen rest
        else line :: dedupGo (strStrip line :: seen) rest
      else line :: dedupGo seen rest

def remove_duplicate_definitions (lines : List String) : List String :=
  dedupGo [] lines

theorem dedupGo_idem : ∀ (l seen : List String),
    dedupGo seen (dedupGo seen l) = dedupGo seen l := by
  intro l
  induction l with
  | nil => intro seen; rfl
  | cons line rest ih =>
      intro seen
      by_cases hq : strStarts (strStrip line) "\"" = true
      · by_cases hs : strStrip line ∈ seen
        · simp only [dedupGo, if_pos hq, if_pos hs]
          exact ih seen
        · simp only [dedupGo, if_pos hq, if_neg hs]
          rw [ih]
      · simp only [dedupGo, if_neg hq]
        rw [ih]

/-- **C9.** The deduplication pass is idempotent: running
`remove_duplicate_definitions` twice yields exactly the lines that running
it once yields, for every input. -/
theorem C9_dedup_idempotent (lines : List String) :
    remove_duplicate_definitions (remove_duplicate_definitions lines) =
      remove_duplicate_definitions lines :=
  dedupGo_idem lines []

end TheSu

namespace TheSu

/-! ### C7: the synthesized indirect-connection edges. -/

/-- Two kept filtered nodes joined through a pruned filtered intermediate. -/
def c7Lines : List DotLine :=
  [ .text "digraph \x7b",
    .nodeDef "a" "", .nodeDef "b" "",
    .nodeDef "F1_filtered" "", .nodeDef "F2_filtered" "", .nodeDef "X_filtered" "",
    .edge "F1_filtered" "a" "", .edge "F2_filtered" "b" "",
    .edge "F1_filtered" "X_filtered" "", .edge "X_filtered" "F2_filtered" "",
    .text "\x7d" ]

/-- Two kept filtered nodes joined through a single mediator. -/
def c7bLines : List DotLine :=
  [ .text "digraph \x7b",
    .nodeDef "a" "", .nodeDef "b" "",
    .nodeDef "F1_filtered" "", .nodeDef "F2_filtered" "", .nodeDef "M_to_M_1" "",
    .edge "F1_filtered" "a" "", .edge "F2_filtered" "b" "",
    .edge "F1_filtered" "M_to_M_1" "", .edge "M_to_M_1" "F2_filtered" "",
    .text "\x7d" ]

/-- `F1_filtered` has no mediator-only walk to a real node, and is connected
to the surviving `F2_filtered` solely through the mediator `M_to_M_1`, which
the sweep removes. -/
def c7cexLines : List DotLine :=
  [ .text "digraph \x7b",
    .nodeDef "r" "",
    .nodeDef "F1_filtered" "", .nodeDef "F2_filtered" "",
    .nodeDef "M_to_M_1" "", .nodeDef "N_to_N_1" "",
    .edge "F1_filtered" "M_to_M_1" "", .edge "M_to_M_1" "F2_filtered" "",
    .edge "F2_filtered" "N_to_N_1" "", .edge "N_to_N_1" "r" "",
    .text "\x7d" ]

def edgeTouches (n : String) : DotLine → Bool
  | .edge s t _ => decide (s = n) || decide (t = n)
  | _ => false

/-- On `c7cexLines` the scenario of the claim holds — `F1_filtered` is
discarded by connectivity pruning, `F2_filtered` survives, and their sole
connecting mediator `M_to_M_1` is removed — yet no indirect edge involving
`F1_filtered` (indeed no indirect edge at all) is synthesized: phase 2 only
connects pairs of *kept* filtered nodes. -/
theorem C7_indirect_edge_cex :
    "F1_filtered" ∈ to_remove c7cexLines ∧
    "F2_filtered" ∈ keep_filtered c7cexLines ∧
    ("F1_filtered", "M_to_M_1") ∈ edgeList c7cexLines ∧
    ("M_to_M_1", "F2_filtered") ∈ edgeList c7cexLines ∧
    "M_to_M_1" ∈ removed_mediator_set c7cexLines ∧
    indirectEdges c7cexLines = [] ∧
    (prune_and_connect_filtered_nodes ["x"] c7cexLines).all
      (fun l => !edgeTouches "F1_filtered" l) = true := by decide

/-- **C7 (amended).** Every synthesized indirect edge joins two *kept*
filtered nodes (so none involves a discarded one), and the label counts the
pruned filtered intermediates, not the removed mediators: collapsing one
pruned filtered node yields `via 1 filtered` (`c7Lines`), while a
connection through a mediator yields `indirectly connected` (`c7bLines`). -/
theorem C7_indirect_edges (lines : List DotLine) :
    (∀ e ∈ indirectEdges lines,
      e.1 ∈ keep_filtered lines ∧ e.2.1 ∈ keep_filtered lines) ∧
    DotLine.edge "F1_filtered" "F2_filtered"
        "style=\"dashed\", color=\"#999999\", xlabel=\"via 1 filtered\", fontsize=\"9\", fontcolor=\"#999999\""
      ∈ prune_and_connect_filtered_nodes ["x"] c7Lines ∧
    DotLine.edge "F1_filtered" "F2_filtered"
        "style=\"dashed\", color=\"#999999\", xlabel=\"indirectly connected\", fontsize=\"9\", fontcolor=\"#999999\""
      ∈ prune_and_connect_filtered_nodes ["x"] c7bLines :=
  ⟨indirectEdges_endpoints lines, by decide, by decide⟩

theorem C7_indirect_edges_witness :
    ("F1_filtered", "F2_filtered", 1) ∈ indirectEdges c7Lines ∧
    "F1_filtered" ∈ keep_filtered c7Lines ∧
    "F2_filtered" ∈ keep_filtered c7Lines :=
  ⟨by decide,
   ((C7_indirect_edges c7Lines).1 ("F1_filtered", "F2_filtered", 1) (by decide)).1,
   ((C7_indirect_edges c7Lines).1 ("F1_filtered", "F2_filtered", 1) (by decide)).2⟩

end TheSu

namespace TheSu

/-! ### C8 and C10: `fix_arrow_directions`
(`src/dot/postprocess/arrow_fixup.py`)

`parse_edges` extracts the edge statements (source, target, bracketed
attribute text — absent brackets and empty brackets both yield the empty
attribute string), skipping edges whose attributes contain
`style="invis"` or match `dir\s*=\s*["']?both["']?`; edges matching the
`none`/`back` variants of that pattern are recorded but skipped by
`identify_edges_to_reverse`, which keeps an edge when both endpoints have
layout positions and the source's y-coordinate is less than the target's;
`modify_arrow_directions` then rewrites each such edge statement in place,
appending `dir="back"` to its attribute list and leaving every other
statement unchanged.  The layout run (`dot -Tplain`) enters only through
the node-position map, embedded as an oracle `String → Option Int` for the
y-coordinates (only their order is consulted). -/

structure EdgeRec where
  src : String
  tgt : String
  attrs : Option String
deriving DecidableEq

/-- Python's `\s` character class. -/
def pySpace (c : Char) : Bool :=
  c = ' ' || c = '\t' || c = '\n' || c = '\r' || c = '\x0b' || c = '\x0c'

/-- Does `dir\s*=\s*["']?<val>` match at the head of `l`? -/
def dirValHere (val : List Char) (l : List Char) : Bool :=
  match l with
  | 'd' :: 'i' :: 'r' :: rest =>
      match rest.dropWhile pySpace with
      | '=' :: rest2 =>
          let rest3 := rest2.dropWhile pySpace
          let rest4 := match rest3 with
            | '"' :: tl => tl
            | '\'' :: tl => tl
            | _ => rest3
          decide (val <+: rest4)
      | _ => false
  | _ => false

/-- `re.search(r'dir\s*=\s*["\x27]?<val>["\x27]?', attrs) is not None`. -/
def scanDirVal (val : List Char) : List Char → Bool
  | [] => false
  | c :: tl => dirValHere val (c :: tl) || scanDirVal val tl

def attrsStr (e : EdgeRec) : String :=
  e.attrs.getD ""

def hasInvisB (e : EdgeRec) : Bool :=
  strIn "style=\"invis\"" (attrsStr e)

def isUndirectedB (e : EdgeRec) : Bool :=
  scanDirVal "none".data (attrsStr e).data

def isReversedB (e : EdgeRec) : Bool :=
  scanDirVal "back".data (attrsStr e).data

def hasBothB (e : EdgeRec) : Bool :=
  scanDirVal "both".data (attrsStr e).data

/-- `',' in edge['attributes'].strip()[-1:]`. -/
def endsComma (a : String) : Bool :=
  match (strStrip a).data.getLast? with
  | some c => decide (c = ',')
  | none => false

/-- The attribute text after `modify_arrow_directions` rewrites one edge:
absent or empty brackets become `[dir="back"]`, otherwise `dir="back"` is
appended, with a separating comma unless one is already trailing. -/
def addBackAttrs : Option String → String
  | none => "dir=\"back\""
  | some a =>
      if a = "" then "dir=\"back\""
      else if endsComma a then a ++ " dir=\"back\""
      else a ++ ", dir=\"back\""

/-- `parse_edges` retention combined with `identify_edges_to_reverse`. -/
def shouldReverse (pos : String → Option Int) (e : EdgeRec) : Bool :=
  !hasInvisB e && !hasBothB e && !isUndirectedB e && !isReversedB e &&
  (match pos e.src, pos e.tgt with
   | some sy, some ty => decide (sy < ty)
   | _, _ => false)

def fixEdge (pos : String → Option Int) (e : EdgeRec) : EdgeRec :=
  if shouldReverse pos e then { e with attrs := some (addBackAttrs e.attrs) }
  else e

def fix_arrow_directions (pos : String → Option Int)
    (content : List EdgeRec) : List EdgeRec :=
  content.map (fixEdge pos)

theorem suffix_append_left {x b : List Char} (a : List Char) (h : x <:+ b) :
    x <:+ a ++ b := by
  rcases h with ⟨t, ht⟩
  exact ⟨a ++ t, by rw [List.append_assoc, ht]⟩

end TheSu

namespace TheSu

def c8pos : String → Option Int :=
  fun n => if n = "a" then some 0 else if n = "b" then some 1 else none

def c8e : EdgeRec :=
  ⟨"a", "b", some "style=\"invis\", color=\"red\""⟩

/-- The invisible edge `c8e` carries none of the three direction markers and
its source sits above its target, yet the corrector leaves it untouched —
`parse_edges` drops `style="invis"` edges before any reversal is
considered, so the claim "every edge not already marked bidirectional,
undirected, or reversed is rewritten when source-y < target-y" fails. -/
theorem C8_direction_cex :
    isUndirectedB c8e = false ∧ isReversedB c8e = false ∧
    hasBothB c8e = false ∧
    c8pos c8e.src = some 0 ∧ c8pos c8e.tgt = some 1 ∧ (0 : Int) < 1 ∧
    fixEdge c8pos c8e = c8e ∧
    strIn "dir=\"back\"" (attrsStr c8e) = false := by decide

/-- **C8 (amended).** For every edge that is not invisible
(`style="invis"` kills it in `parse_edges`) and carries none of the
`both`/`none`/`back` direction markers, if the layout oracle places the
source's y-coordinate strictly below the target's, the edge is rewritten to
its original attributes plus a trailing `dir="back"`; every other edge —
invisible, marked, lacking a position, or already flowing downward — passes
through unchanged. -/
theorem C8_direction_fixup (pos : String → Option Int) (e : EdgeRec) :
    (hasInvisB e = false → isUndirectedB e = false → isReversedB e = false →
      hasBothB e = false →
      ∀ sy ty, pos e.src = some sy → pos e.tgt = some ty → sy < ty →
        fixEdge pos e = { e with attrs := some (addBackAttrs e.attrs) } ∧
        strEnds (addBackAttrs e.attrs) "dir=\"back\"" = true ∧
        (∀ a, e.attrs = some a → a ≠ "" →
          strStarts (addBackAttrs e.attrs) a = true)) ∧
    ((hasInvisB e = true ∨ isUndirectedB e = true ∨ isReversedB e = true ∨
        hasBothB e = true ∨ pos e.src = none ∨ pos e.tgt = none ∨
        (∀ sy ty, pos e.src = some sy → pos e.tgt = some ty → ty ≤ sy)) →
      fixEdge pos e = e) := by
  constructor
  · intro h1 h2 h3 h4 sy ty hsy hty hlt
    have hsr : shouldReverse pos e = true := by
      simp only [shouldReverse, h1, h2, h3, h4, hsy, hty, Bool.not_false,
        Bool.true_and, decide_eq_true_eq]
      exact hlt
    refine ⟨by rw [fixEdge, if_pos hsr], ?_, ?_⟩
    · rcases he : e.attrs with _ | a
      · simp only [addBackAttrs]
        decide
      · simp only [addBackAttrs]
        by_cases ha : a = ""
        · rw [if_pos ha]
          decide
        · rw [if_neg ha]
          by_cases hc : endsComma a = true
          · rw [if_pos hc]
            simp only [strEnds, decide_eq_true_eq, String.data_append]
            exact suffix_append_left a.data (by decide)
          · rw [if_neg hc]
            simp only [strEnds, decide_eq_true_eq, String.data_append]
            exact suffix_append_left a.data (by decide)
    · intro a ha hane
      rw [ha]
      simp only [addBackAttrs, if_neg hane]
      by_cases hc : endsComma a = true
      · rw [if_pos hc]
        simp only [strStarts, decide_eq_true_eq, String.data_append]
        exact ⟨" dir=\"back\"".data, rfl⟩
      · rw [if_neg hc]
        simp only [strStarts, decide_eq_true_eq, String.data_append]
        exact ⟨", dir=\"back\"".data, rfl⟩
  · intro h
    have hsr : shouldReverse pos e = false := by
      simp only [shouldReverse]
      rcases h with h | h | h | h | h | h | h
      · simp [h]
      · simp [h]
      · simp [h]
      · simp [h]
      · simp [h]
      · simp [h]
      · rcases hsy : pos e.src with _ | sy
        · simp
        · rcases hty : pos e.tgt with _ | ty
          · simp
          · have := h sy ty hsy hty
            simp only [Bool.and_eq_false_iff]
            right
            show decide (sy < ty) = false
            simp only [decide_eq_false_iff_not]
            omega
    rw [fixEdge, if_neg (by simp [hsr])]

def c8goodE : EdgeRec := ⟨"a", "b", some "color=\"red\""⟩

theorem C8_direction_fixup_witness :
    fixEdge c8pos c8goodE = ⟨"a", "b", some "color=\"red\", dir=\"back\""⟩ ∧
    strEnds (addBackAttrs c8goodE.attrs) "dir=\"back\"" = true ∧
    strStarts (addBackAttrs c8goodE.attrs) "color=\"red\"" = true := by
  have h := (C8_direction_fixup c8pos c8goodE).1 (by decide) (by decide)
    (by decide) (by decide) 0 1 (by decide) (by decide) (by decide)
  exact ⟨by rw [h.1]; decide, h.2.1, h.2.2 "color=\"red\"" rfl (by decide)⟩

/-- **C10.** An edge whose attribute list contains `style="invis"` passes
through the arrow-fixup stage identically, whatever positions the layout
oracle reports: `parse_edges` skips invisible edges, so they can never be
selected for reversal. -/
theorem C10_invis_frame (pos : String → Option Int) (content : List EdgeRec)
    (e : EdgeRec) (a : String) (ha : e.attrs = some a)
    (hinv : strIn "style=\"invis\"" a = true) :
    fixEdge pos e = e ∧
    ∀ i : Nat, content[i]? = some e →
      (fix_arrow_directions pos content)[i]? = some e := by
  have hinvb : hasInvisB e = true := by
    simp only [hasInvisB, attrsStr, ha, Option.getD_some]
    exact hinv
  have hfix : fixEdge pos e = e := by
    rw [fixEdge, if_neg]
    simp [shouldReverse, hinvb]
  refine ⟨hfix, ?_⟩
  intro i hi
  simp only [fix_arrow_directions, List.getElem?_map, hi, Option.map_some',
    hfix]

theorem C10_invis_frame_witness :
    fixEdge c8pos c8e = c8e ∧
    (fix_arrow_directions c8pos [c8e])[0]? = some c8e :=
  ⟨(C10_invis_frame c8pos [c8e] c8e "style=\"invis\", color=\"red\"" rfl
      (by decide)).1,
   (C10_invis_frame c8pos [c8e] c8e "style=\"invis\", color=\"red\"" rfl
      (by decide)).2 0 rfl⟩

end TheSu

namespace TheSu

/-! ### C5: the global filter toggles (`src/dot/orchestrator.py`,
`create_dot`)

The XML document is a rose tree of tagged elements.  `xpath('.//tag')`
followed by `parent.remove` for every match removes each matching
descendant together with its subtree, modelled by a recursive filter.
Toggle (a) `filter_propositions` removes every `matchingProposition`;
toggle (b) `filter_matching_proposition_sequences` — an `elif`, so only
when (a) is off — removes every `matchingPropositionSequence` and
`matchingPropositionPhases` and the `sequence` descendants of
`proposition` elements; toggle (c) `filter_all_sequences` — a separate
`if` — removes every `sequence` descendant whenever it is set. -/

inductive XmlElem where
  | mk (tag : String) (children : List XmlElem)

def XmlElem.tag : XmlElem → String
  | .mk t _ => t

mutual

def removeTag (tag : String) : XmlElem → XmlElem
  | .mk t cs => .mk t (removeTagList tag cs)

def removeTagList (tag : String) : List XmlElem → List XmlElem
  | [] => []
  | c :: rest =>
      if c.tag = tag then removeTagList tag rest
      else removeTag tag c :: removeTagList tag rest

end

mutual

/-- The loop over `all_propositions` in toggle (b): remove the `sequence`
descendants of every `proposition` element. -/
def removeSeqInProps : XmlElem → XmlElem
  | .mk t cs =>
      if t = "proposition" then removeTag "sequence" (.mk t cs)
      else .mk t (removeSeqInPropsList cs)

def removeSeqInPropsList : List XmlElem → List XmlElem
  | [] => []
  | c :: rest => removeSeqInProps c :: removeSeqInPropsList rest

end

/-- Toggles (a), (b), (c) of `create_dot` in order. -/
def toggleSection (fp fmps fas : Bool) (t : XmlElem) : XmlElem :=
  let t1 := if fp then removeTag "matchingProposition" t else t
  let t2 :=
    if fp then t1
    else if fmps then
      removeSeqInProps
        (removeTag "matchingPropositionPhases"
          (removeTag "matchingPropositionSequence" t1))
    else t1
  if fas then removeTag "sequence" t2 else t2

def c5Tree : XmlElem := .mk "root" [.mk "sequence" [], .mk "claim" []]

/-- With the propositions toggle (or the matching-sequences toggle) active,
the all-sequences toggle still removes the `sequence` element — it is an
independent `if`, not an `elif` — refuting the claimed suppression of the
lowest-precedence toggle. -/
theorem C5_toggle_cex :
    toggleSection true false true c5Tree =
      XmlElem.mk "root" [XmlElem.mk "claim" []] ∧
    toggleSection false true true c5Tree =
      XmlElem.mk "root" [XmlElem.mk "claim" []] ∧
    toggleSection true false false c5Tree =
      XmlElem.mk "root" [XmlElem.mk "sequence" [], XmlElem.mk "claim" []] :=
  ⟨rfl, rfl, rfl⟩

/-- **C5 (amended).** Precedence holds only between the first two toggles:
the matching-sequences toggle is suppressed while the propositions toggle
is active, but the all-sequences toggle fires whenever it is set,
performing its `sequence` removals on top of whatever the other toggles
produced; with no toggle set the section is the identity. -/
theorem C5_toggles (fp fmps fas : Bool) (t : XmlElem) :
    (fp = true → toggleSection fp fmps fas t = toggleSection fp false fas t) ∧
    (fas = true →
      toggleSection fp fmps fas t =
        removeTag "sequence" (toggleSection fp fmps false t)) ∧
    (fp = false → fmps = false → fas = false →
      toggleSection fp fmps fas t = t) := by
  refine ⟨?_, ?_, ?_⟩
  · intro h; subst h; cases fmps <;> cases fas <;> rfl
  · intro h; subst h; cases fp <;> cases fmps <;> rfl
  · intro h1 h2 h3; subst h1; subst h2; subst h3; rfl

theorem C5_toggles_witness :
    toggleSection true true true c5Tree = toggleSection true false true c5Tree ∧
    toggleSection true true true c5Tree =
      removeTag "sequence" (toggleSection true true false c5Tree) :=
  ⟨(C5_toggles true true true c5Tree).1 rfl,
   (C5_toggles true true true c5Tree).2.1 rfl⟩

end TheSu

namespace TheSu

/-! ### C6: positional phase removal (`src/config/filters.py`).

Both `apply_custom_prop_filters` (lines 201–205) and
`apply_custom_seq_phase_filters` (lines 345–349) decide which
`matchingPropositionPhases` child to remove with the same kernel, given the
number of `matchingPropositionSequence` siblings, the original index of the
removed one, and the list of MPP siblings of a phase element. -/

def phase_to_remove {α : Type} (num_m_seq_siblings removed_index : Nat)
    (mpp_siblings : List α) : Option α :=
  if num_m_seq_siblings = 1 ∧ mpp_siblings.length = 1 then
    mpp_siblings[0]?
  else if 1 ≤ mpp_siblings.length ∧ removed_index < mpp_siblings.length then
    mpp_siblings[removed_index]?
  else none

/-- With two sequence siblings, removal at index 1, and exactly one phase
sibling, no phase is removed — the single-phase rule fires only when the
removed sequence was also an only child (`num_m_seq_siblings == 1`), so the
claim "N sequence siblings and exactly 1 phase sibling → the single phase
is removed" fails for N = 2. -/
theorem C6_phase_cex :
    phase_to_remove 2 1 ["p"] = none ∧
    phase_to_remove 1 0 ["p"] = some "p" := by decide

/-- **C6 (amended).** The phase aligned with a removed
`matchingPropositionSequence` is chosen positionally: the single phase
sibling is removed only when there is exactly one sequence sibling *and*
exactly one phase sibling; otherwise the phase at the removed sequence's
original index is removed when that index is in range, and nothing is
removed when it is out of range. -/
theorem C6_phase_alignment {α : Type} (n i : Nat) (mpp : List α) :
    (n = 1 → mpp.length = 1 →
      ∃ p, mpp = [p] ∧ phase_to_remove n i mpp = some p) ∧
    (¬(n = 1 ∧ mpp.length = 1) → i < mpp.length →
      phase_to_remove n i mpp = mpp[i]?) ∧
    (¬(n = 1 ∧ mpp.length = 1) → mpp.length ≤ i →
      phase_to_remove n i mpp = none) := by
  refine ⟨?_, ?_, ?_⟩
  · intro hn hm
    cases mpp with
    | nil => simp at hm
    | cons p rest =>
        have hrest : rest = [] := by
          have : rest.length = 0 := by
            simp only [List.length_cons] at hm
            omega
          exact List.length_eq_zero.mp this
        subst hrest
        refine ⟨p, rfl, ?_⟩
        simp [phase_to_remove, hn]
  · intro hne hi
    have h1 : 1 ≤ mpp.length := by omega
    simp only [phase_to_remove, if_neg hne, if_pos (And.intro h1 hi)]
  · intro hne hle
    simp only [phase_to_remove, if_neg hne]
    rw [if_neg]
    rintro ⟨-, h2⟩
    omega

end TheSu

namespace TheSu

theorem C6_phase_alignment_witness :
    (∃ p, ["p"] = [p] ∧ phase_to_remove 1 0 ["p"] = some p) ∧
    phase_to_remove 3 1 ["a", "b"] = ["a", "b"][1]? ∧
    phase_to_remove 2 1 ["q"] = none :=
  ⟨(C6_phase_alignment 1 0 ["p"]).1 rfl rfl,
   (C6_phase_alignment 3 1 ["a", "b"]).2.1 (by decide) (by decide),
   (C6_phase_alignment 2 1 ["q"]).2.2 (by decide) (by decide)⟩

end TheSu

namespace TheSu

/-! ### C1: edge closure across the rewriting pipeline.

`redirect_or_remove_invalid_edges`
(`src/dot/postprocess/edge_validation.py`) classifies lines with the
node/edge regexes (the `DotLine` constructors), collects the defined-node
set, and rewrites each edge with a missing endpoint: an excluded missing
endpoint becomes `{id}_filtered` (and a pseudo-node definition is recorded,
keyed by id), otherwise the ancestor-THESIS candidates from the XML — the
oracle `anc` lists them in lookup order — are tried and the first one
defined in the DOT is used; failing that, or when the rewrite would produce
a self-loop, the edge is dropped.  The recorded pseudo-node definitions are
inserted before the last closing brace.  The deduplication pass keys on the
emitted line text of quoted lines, i.e. on the `nodeDef`/`edge` payloads
themselves. -/

def find_thesis_ancestor (anc : String → List String)
    (defined : List String) (n : String) : Option String :=
  (anc n).find? fun a => decide (a ∈ defined)

/-- `final_source`/`final_target` for one (possibly missing) endpoint. -/
def resolveEndpoint (exclude : List String) (anc : String → List String)
    (defined : List String) (n : String) : Option String :=
  if n ∈ defined then some n
  else if n ∈ exclude then some (n ++ "_filtered")
  else find_thesis_ancestor anc defined n

/-- Pass 2 for one line: `none` marks the line for removal. -/
def validateEdge (exclude : List String) (anc : String → List String)
    (defined : List String) : DotLine → Option DotLine
  | .edge s t attrs =>
      if s ∈ defined ∧ t ∈ defined then some (.edge s t attrs)
      else
        (resolveEndpoint exclude anc defined s).bind fun fs =>
          (resolveEndpoint exclude anc defined t).bind fun ft =>
            if fs = ft then none else some (.edge fs ft attrs)
  | l => some l

/-- The excluded ids whose pseudo-node definition one edge records. -/
def addsFromEdge (exclude : List String) (anc : String → List String)
    (defined : List String) : DotLine → List String
  | .edge s t _ =>
      if s ∈ defined ∧ t ∈ defined then []
      else
        (if s ∉ defined ∧ s ∈ exclude then [s] else []) ++
        (if (resolveEndpoint exclude anc defined s).isSome ∧
            t ∉ defined ∧ t ∈ exclude then [t] else [])
  | _ => []

/-- `filtered_nodes_to_add`: edges are processed bottom-up, each excluded id
recorded once. -/
def collectAdds (exclude : List String) (anc : String → List String)
    (defined : List String) (lines : List DotLine) : List String :=
  (lines.reverse.flatMap (addsFromEdge exclude anc defined)).dedup

/-- `node_id.split(".")[-1]`. -/
def lastPart (s : String) : String :=
  ⟨(s.data.reverse.takeWhile fun c => c ≠ '.').reverse⟩

def _infer_element_type_from_id (node_id : String) : String :=
  match (lastPart node_id).data with
  | c1 :: c2 :: _ =>
      if c1.toUpper = 'T' ∧ c2.isDigit then "THESIS"
      else if c1.toUpper = 'S' ∧ c2.isDigit then "SUPPORT"
      else "THESIS"
  | _ => "THESIS"

/-- The attribute text of `_make_filtered_node_line`. -/
def filteredNodeAttrs (excluded_id : String) : String :=
  let element_type := _infer_element_type_from_id excluded_id
  let fill := if element_type = "SUPPORT" then "#dae8fc" else "#f0faf0"
  let border := if element_type = "SUPPORT" then "#7c9ac7" else "#82b366"
  let shape := if element_type = "SUPPORT" then "ellipse" else "box"
  let gephi := if element_type = "SUPPORT" then "SUPP" else "THES"
  let source_attr :=
    if strIn "." excluded_id then
      ", source=\"" ++ ⟨(((excluded_id.data.reverse.dropWhile
        fun c => c ≠ '.').drop 1)).reverse⟩ ++ "\""
    else ""
  "label=<<b>" ++ element_type ++ "</b><br/><i>(filtered)</i>>, " ++
  "gephi_label=\"" ++ gephi ++ "\", gephi_filtered=\"true\", " ++
  "fontsize=\"11\", fillcolor=\"" ++ fill ++ "\", color=\"" ++ border ++
  "\", style=\"rounded,filled\", shape=\"" ++ shape ++ "\"" ++ source_attr

def _make_filtered_node_line (excluded_id : String) : DotLine :=
  .nodeDef (excluded_id ++ "_filtered") (filteredNodeAttrs excluded_id)

def redirect_or_remove_invalid_edges (exclude : List String)
    (anc : String → List String) (lines : List DotLine) : List DotLine :=
  let defined := definedNodesD lines
  let base := lines.filterMap (validateEdge exclude anc defined)
  let adds := collectAdds exclude anc defined lines
  if adds.isEmpty then base
  else insertBeforeLastBrace base
    (.blank :: adds.flatMap fun x => [_make_filtered_node_line x, .blank])

def isDefLine : DotLine → Bool
  | .nodeDef _ _ => true
  | .edge _ _ _ => true
  | _ => false

/-- `remove_duplicate_definitions` over classified lines: first occurrence
of every quoted (node/edge) line is kept, later identical ones dropped. -/
def dedupGoD (seen : List DotLine) : List DotLine → List DotLine
  | [] => []
  | l :: rest =>
      if isDefLine l then
        if l ∈ seen then dedupGoD seen rest
        else l :: dedupGoD (l :: seen) rest
      else l :: dedupGoD seen rest

def remove_duplicate_definitionsD (w : List DotLine) : List DotLine :=
  dedupGoD [] w

/-- The content-rewriting tail of the pipeline: edge validation, exclusion
pruning, deduplication (line-break normalization only moves blank lines). -/
def pipeline_output (exclude : List String) (anc : String → List String)
    (lines : List DotLine) : List DotLine :=
  remove_duplicate_definitionsD
    (prune_and_connect_filtered_nodes exclude
      (redirect_or_remove_invalid_edges exclude anc lines))

/-- The number of node-definition lines for id `n`. -/
def defCount (w : List DotLine) (n : String) : Nat :=
  w.countP fun l =>
    match l with
    | .nodeDef i _ => decide (i = n)
    | _ => false

end TheSu

namespace TheSu

theorem dedupGoD_sublist :
    ∀ (w : List DotLine) (seen : List DotLine),
      List.Sublist (dedupGoD seen w) w := by
  intro w
  induction w with
  | nil => intro seen; simp [dedupGoD]
  | cons l rest ih =>
      intro seen
      simp only [dedupGoD]
      split
      · split
        · exact (ih seen).cons l
        · exact (ih _).cons₂ l
      · exact (ih seen).cons₂ l

theorem dedupGoD_mem :
    ∀ (w : List DotLine) (seen : List DotLine) (x : DotLine),
      x ∈ w → x ∉ seen → x ∈ dedupGoD seen w := by
  intro w
  induction w with
  | nil => intro seen x hx _; simp at hx
  | cons l rest ih =>
      intro seen x hx hns
      by_cases hxl : x = l
      · subst hxl
        simp only [dedupGoD]
        by_cases hdef : isDefLine x = true
        · rw [if_pos hdef, if_neg hns]
          exact List.mem_cons_self _ _
        · rw [if_neg hdef]
          exact List.mem_cons_self _ _
      · have h : x ∈ rest := by
          rcases List.mem_cons.mp hx with h | h
          · exact absurd h hxl
          · exact h
        simp only [dedupGoD]
        split
        · split
          · exact ih seen x h hns
          · refine List.mem_cons_of_mem _ (ih _ x h ?_)
            intro hmem
            rcases List.mem_cons.mp hmem with h2 | h2
            · exact hxl h2
            · exact hns h2
        · exact List.mem_cons_of_mem _ (ih seen x h hns)

theorem collapseGo_sublist :
    ∀ (w : List DotLine) (b : Bool), List.Sublist (collapseGo b w) w := by
  intro w
  induction w with
  | nil => intro b; simp [collapseGo]
  | cons l rest ih =>
      intro b
      cases l with
      | blank =>
          simp only [collapseGo]
          split
          · exact (ih true).cons _
          · exact (ih true).cons₂ _
      | nodeDef i a => exact (ih false).cons₂ _
      | edge s t a => exact (ih false).cons₂ _
      | text s => exact (ih false).cons₂ _

theorem insertBeforeLastBrace_mem_right {a b : List DotLine} {x : DotLine}
    (hbr : ∃ l ∈ a, isCloseBrace l = true) (hx : x ∈ b) :
    x ∈ insertBeforeLastBrace a b := by
  simp only [insertBeforeLastBrace]
  rcases hfind : a.reverse.findIdx? isCloseBrace with _ | ridx
  · exfalso
    rcases hbr with ⟨l, hl, hcl⟩
    have := List.findIdx?_eq_none_iff.mp hfind l (List.mem_reverse.mpr hl)
    rw [hcl] at this
    cases this
  · exact List.mem_append.mpr (Or.inl (List.mem_append.mpr (Or.inr hx)))

theorem insertBeforeLastBrace_countP (p : DotLine → Bool)
    (a b : List DotLine) :
    (insertBeforeLastBrace a b).countP p ≤ a.countP p + b.countP p := by
  simp only [insertBeforeLastBrace]
  rcases hfind : a.reverse.findIdx? isCloseBrace with _ | ridx
  · show a.countP p ≤ a.countP p + b.countP p
    omega
  · rw [List.countP_append, List.countP_append]
    have : (a.take (a.length - 1 - ridx)).countP p +
        (a.drop (a.length - 1 - ridx)).countP p = a.countP p := by
      rw [← List.countP_append, List.take_append_drop]
    omega

end TheSu

namespace TheSu

theorem validate_edge_shape (exclude : List String) (anc : String → List String)
    (defined : List String) (s t a : String) (x : DotLine)
    (h : validateEdge exclude anc defined (.edge s t a) = some x) :
    ∃ s' t', x = .edge s' t' a ∧
      resolveEndpoint exclude anc defined s = some s' ∧
      resolveEndpoint exclude anc defined t = some t' := by
  simp only [validateEdge] at h
  split at h
  · injection h with h'
    rename_i hdef
    refine ⟨s, t, h'.symm, ?_, ?_⟩
    · simp [resolveEndpoint, hdef.1]
    · simp [resolveEndpoint, hdef.2]
  · rcases Option.bind_eq_some.mp h with ⟨fs, hs, h2⟩
    rcases Option.bind_eq_some.mp h2 with ⟨ft, ht, h3⟩
    split at h3
    · cases h3
    · injection h3 with h'
      exact ⟨fs, ft, h'.symm, hs, ht⟩

theorem validate_countP (exclude : List String) (anc : String → List String)
    (defined : List String) (p : DotLine → Bool)
    (hp : ∀ s t a, p (.edge s t a) = false) :
    ∀ lines : List DotLine,
      (lines.filterMap (validateEdge exclude anc defined)).countP p =
        lines.countP p := by
  intro lines
  induction lines with
  | nil => rfl
  | cons l rest ih =>
      cases l with
      | nodeDef i a =>
          show ((DotLine.nodeDef i a) ::
            rest.filterMap (validateEdge exclude anc defined)).countP p = _
          rw [List.countP_cons, List.countP_cons, ih]
      | blank =>
          show (DotLine.blank ::
            rest.filterMap (validateEdge exclude anc defined)).countP p = _
          rw [List.countP_cons, List.countP_cons, ih]
      | text s =>
          show ((DotLine.text s) ::
            rest.filterMap (validateEdge exclude anc defined)).countP p = _
          rw [List.countP_cons, List.countP_cons, ih]
      | edge s t a =>
          rcases hv : validateEdge exclude anc defined (.edge s t a) with _ | x
          · rw [List.filterMap_cons_none hv, List.countP_cons, hp s t a, ih]
            simp
          · rcases validate_edge_shape exclude anc defined s t a x hv with
              ⟨s', t', hx, -, -⟩
            subst hx
            rw [List.filterMap_cons_some hv, List.countP_cons,
              List.countP_cons, hp, hp, ih]

theorem validate_defCount (exclude : List String) (anc : String → List String)
    (defined : List String) (lines : List DotLine) (n : String) :
    defCount (lines.filterMap (validateEdge exclude anc defined)) n =
      defCount lines n :=
  validate_countP exclude anc defined _ (fun _ _ _ => rfl) lines

theorem resolve_defined (exclude : List String) (anc : String → List String)
    (defined : List String) (n m : String)
    (h : resolveEndpoint exclude anc defined n = some m) :
    m ∈ defined ∨ (n ∉ defined ∧ n ∈ exclude ∧ m = n ++ "_filtered") := by
  simp only [resolveEndpoint] at h
  split at h
  · injection h with h'
    subst h'
    exact Or.inl (by assumption)
  · split at h
    · injection h with h'
      exact Or.inr ⟨by assumption, by assumption, h'.symm⟩
    · have := List.find?_some h
      simp only [decide_eq_true_eq] at this
      exact Or.inl this

end TheSu

namespace TheSu

theorem adds_subset (exclude : List String) (anc : String → List String)
    (defined : List String) (lines : List DotLine) :
    ∀ x ∈ collectAdds exclude anc defined lines,
      x ∈ exclude ∧ x ∉ defined := by
  intro x hx
  simp only [collectAdds, List.mem_dedup, List.mem_flatMap] at hx
  rcases hx with ⟨l, hl, hx⟩
  cases l with
  | edge s t a =>
      simp only [addsFromEdge] at hx
      split at hx
      · simp at hx
      · rcases List.mem_append.mp hx with h | h
        · split at h
          · simp only [List.mem_singleton] at h
            subst h
            rename_i hcond
            exact ⟨hcond.2, hcond.1⟩
          · simp at h
        · split at h
          · simp only [List.mem_singleton] at h
            subst h
            rename_i hcond
            exact ⟨hcond.2.2, hcond.2.1⟩
          · simp at h
  | nodeDef i a => simp [addsFromEdge] at hx
  | blank => simp [addsFromEdge] at hx
  | text s2 => simp [addsFromEdge] at hx

theorem adds_mem_source (exclude : List String) (anc : String → List String)
    (defined : List String) (lines : List DotLine) (s t a : String)
    (hl : DotLine.edge s t a ∈ lines) (hs1 : s ∉ defined) (hs2 : s ∈ exclude) :
    s ∈ collectAdds exclude anc defined lines := by
  simp only [collectAdds, List.mem_dedup, List.mem_flatMap]
  refine ⟨.edge s t a, List.mem_reverse.mpr hl, ?_⟩
  simp only [addsFromEdge]
  rw [if_neg (by tauto), List.mem_append]
  left
  rw [if_pos ⟨hs1, hs2⟩]
  simp

theorem adds_mem_target (exclude : List String) (anc : String → List String)
    (defined : List String) (lines : List DotLine) (s t a : String)
    (hl : DotLine.edge s t a ∈ lines)
    (hres : (resolveEndpoint exclude anc defined s).isSome = true)
    (ht1 : t ∉ defined) (ht2 : t ∈ exclude) :
    t ∈ collectAdds exclude anc defined lines := by
  simp only [collectAdds, List.mem_dedup, List.mem_flatMap]
  refine ⟨.edge s t a, List.mem_reverse.mpr hl, ?_⟩
  simp only [addsFromEdge]
  rw [if_neg (by tauto), List.mem_append]
  right
  rw [if_pos ⟨hres, ht1, ht2⟩]
  simp

theorem redirect_mem_left (exclude : List String) (anc : String → List String)
    (lines : List DotLine) (x : DotLine)
    (hx : x ∈ lines.filterMap (validateEdge exclude anc (definedNodesD lines))) :
    x ∈ redirect_or_remove_invalid_edges exclude anc lines := by
  simp only [redirect_or_remove_invalid_edges]
  split
  · exact hx
  · exact insertBeforeLastBrace_mem_left hx

theorem redirect_mem_added (exclude : List String) (anc : String → List String)
    (lines : List DotLine) (x : String)
    (hx : x ∈ collectAdds exclude anc (definedNodesD lines) lines)
    (hbr : ∃ l ∈ lines, isCloseBrace l = true) :
    _make_filtered_node_line x ∈
      redirect_or_remove_invalid_edges exclude anc lines := by
  simp only [redirect_or_remove_invalid_edges]
  split
  · rename_i hemp
    rw [List.isEmpty_iff] at hemp
    rw [hemp] at hx
    simp at hx
  · apply insertBeforeLastBrace_mem_right
    · rcases hbr with ⟨l, hl, hcl⟩
      cases l with
      | text s2 =>
          exact ⟨.text s2, List.mem_filterMap.mpr ⟨.text s2, hl, rfl⟩, hcl⟩
      | nodeDef i a => simp [isCloseBrace] at hcl
      | edge s t a => simp [isCloseBrace] at hcl
      | blank => simp [isCloseBrace] at hcl
    · refine List.mem_cons_of_mem _ (List.mem_flatMap.mpr ⟨x, hx, ?_⟩)
      simp

theorem redirect_edges (exclude : List String) (anc : String → List String)
    (lines : List DotLine) (s t a : String)
    (hx : DotLine.edge s t a ∈
      redirect_or_remove_invalid_edges exclude anc lines) :
    DotLine.edge s t a ∈
      lines.filterMap (validateEdge exclude anc (definedNodesD lines)) := by
  simp only [redirect_or_remove_invalid_edges] at hx
  split at hx
  · exact hx
  · rcases insertBeforeLastBrace_mem_or hx with h | h
    · exact h
    · exfalso
      rcases List.mem_cons.mp h with h2 | h2
      · cases h2
      · rcases List.mem_flatMap.mp h2 with ⟨y, hy, hmem⟩
        simp [_make_filtered_node_line] at hmem

/-- Every edge of a line list has both endpoints defined in it. -/
def EdgeClosed (w : List DotLine) : Prop :=
  ∀ s t a, DotLine.edge s t a ∈ w →
    (∃ b, DotLine.nodeDef s b ∈ w) ∧ (∃ b, DotLine.nodeDef t b ∈ w)

theorem redirect_closed (exclude : List String) (anc : String → List String)
    (lines : List DotLine) (hbr : ∃ l ∈ lines, isCloseBrace l = true) :
    EdgeClosed (redirect_or_remove_invalid_edges exclude anc lines) := by
  intro s t a hx
  have hbase := redirect_edges exclude anc lines s t a hx
  rcases List.mem_filterMap.mp hbase with ⟨l0, hl0, hv⟩
  cases l0 with
  | nodeDef i b => simp [validateEdge] at hv
  | blank => simp [validateEdge] at hv
  | text s2 => simp [validateEdge] at hv
  | edge s0 t0 b =>
      rcases validate_edge_shape exclude anc _ s0 t0 b _ hv with
        ⟨s', t', hxeq, hrs, hrt⟩
      injection hxeq with h1 h2 h3
      subst h1
      subst h2
      subst h3
      constructor
      · rcases resolve_defined _ _ _ _ _ hrs with hdef | ⟨hnd, hex, hself⟩
        · rcases mem_definedNodesD lines _ hdef with ⟨battrs, hb⟩
          exact ⟨battrs, redirect_mem_left _ _ _ _
            (List.mem_filterMap.mpr ⟨_, hb, rfl⟩)⟩
        · rw [hself]
          have hadd := adds_mem_source exclude anc (definedNodesD lines)
            lines s0 t0 _ hl0 hnd hex
          exact ⟨filteredNodeAttrs s0, redirect_mem_added _ _ _ _ hadd hbr⟩
      · rcases resolve_defined _ _ _ _ _ hrt with hdef | ⟨hnd, hex, hself⟩
        · rcases mem_definedNodesD lines _ hdef with ⟨battrs, hb⟩
          exact ⟨battrs, redirect_mem_left _ _ _ _
            (List.mem_filterMap.mpr ⟨_, hb, rfl⟩)⟩
        · rw [hself]
          have hres : (resolveEndpoint exclude anc
              (definedNodesD lines) s0).isSome = true := by
            rw [hrs]; rfl
          have hadd := adds_mem_target exclude anc (definedNodesD lines)
            lines s0 t0 _ hl0 hres hnd hex
          exact ⟨filteredNodeAttrs t0, redirect_mem_added _ _ _ _ hadd hbr⟩

end TheSu

namespace TheSu

theorem prune_eq_of_empty_exclude (exclude : List String) (v : List DotLine)
    (h : exclude.isEmpty = true) :
    prune_and_connect_filtered_nodes exclude v = v := by
  simp [prune_and_connect_filtered_nodes, h]

theorem prune_eq_of_no_filtered (exclude : List String) (v : List DotLine)
    (h : (filteredNodes v).isEmpty = true) :
    prune_and_connect_filtered_nodes exclude v = v := by
  rw [prune_and_connect_filtered_nodes]
  split
  · rfl
  · rfl

theorem prune_closed (exclude : List String) (v : List DotLine)
    (hnoamb : ∀ n ∈ definedNodesD v,
      ¬(strEnds n "_filtered" = true ∧ is_mediator_node n = true))
    (hcl : EdgeClosed v) :
    EdgeClosed (prune_and_connect_filtered_nodes exclude v) := by
  cases hexb : exclude.isEmpty with
  | true => rw [prune_eq_of_empty_exclude exclude v hexb]; exact hcl
  | false =>
  cases hfne : (filteredNodes v).isEmpty with
  | true => rw [prune_eq_of_no_filtered exclude v hfne]; exact hcl
  | false =>
  intro s t a hx
  rcases prune_mem_cases v exclude hexb hfne _ hx with h | h | h
  · have hmem := List.mem_filter.mp h
    have hcond : (!(decide (s ∈ purgedNodes v) ||
        decide (t ∈ purgedNodes v))) = true := hmem.2
    simp only [Bool.not_eq_true', Bool.or_eq_false_iff,
      decide_eq_false_iff_not] at hcond
    rcases hcl s t a hmem.1 with ⟨⟨bs, hbs⟩, ⟨bt, hbt⟩⟩
    refine ⟨⟨bs, ?_⟩, ⟨bt, ?_⟩⟩
    · refine prune_mem_base v exclude hexb hfne _
        (List.mem_filter.mpr ⟨hbs, ?_⟩) (fun hcon => DotLine.noConfusion hcon)
      show (!decide (s ∈ purgedNodes v)) = true
      simp [hcond.1]
    · refine prune_mem_base v exclude hexb hfne _
        (List.mem_filter.mpr ⟨hbt, ?_⟩) (fun hcon => DotLine.noConfusion hcon)
      show (!decide (t ∈ purgedNodes v)) = true
      simp [hcond.2]
  · cases h
  · rcases h with ⟨e, he, heq⟩
    have hend := indirectEdges_endpoints v e he
    simp only [indirectEdgeLine] at heq
    injection heq with h1 h2 h3
    subst h1
    subst h2
    have hf1 : e.1 ∈ filteredNodes v := (List.mem_filter.mp hend.1).1
    have hf2 : e.2.1 ∈ filteredNodes v := (List.mem_filter.mp hend.2).1
    have hd1 : e.1 ∈ definedNodesD v := (List.mem_filter.mp hf1).1
    have hd2 : e.2.1 ∈ definedNodesD v := (List.mem_filter.mp hf2).1
    rcases mem_definedNodesD v _ hd1 with ⟨b1, hb1⟩
    rcases mem_definedNodesD v _ hd2 with ⟨b2, hb2⟩
    have hnp1 : e.1 ∉ purgedNodes v := kept_not_purged v e.1 hf1 hend.1 hnoamb
    have hnp2 : e.2.1 ∉ purgedNodes v :=
      kept_not_purged v e.2.1 hf2 hend.2 hnoamb
    refine ⟨⟨b1, ?_⟩, ⟨b2, ?_⟩⟩
    · refine prune_mem_base v exclude hexb hfne _
        (List.mem_filter.mpr ⟨hb1, ?_⟩) (fun hcon => DotLine.noConfusion hcon)
      show (!decide (e.1 ∈ purgedNodes v)) = true
      simp [hnp1]
    · refine prune_mem_base v exclude hexb hfne _
        (List.mem_filter.mpr ⟨hb2, ?_⟩) (fun hcon => DotLine.noConfusion hcon)
      show (!decide (e.2.1 ∈ purgedNodes v)) = true
      simp [hnp2]

theorem dedup_closed (w : List DotLine) (hcl : EdgeClosed w) :
    EdgeClosed (remove_duplicate_definitionsD w) := by
  intro s t a hx
  have hw := (dedupGoD_sublist w []).subset hx
  rcases hcl s t a hw with ⟨⟨bs, hbs⟩, ⟨bt, hbt⟩⟩
  exact ⟨⟨bs, dedupGoD_mem w [] _ hbs (by simp)⟩,
    ⟨bt, dedupGoD_mem w [] _ hbt (by simp)⟩⟩

end TheSu

namespace TheSu

theorem defCount_zero_of_not_defined (w : List DotLine) (n : String)
    (h : n ∉ definedNodes w) : defCount w n = 0 := by
  rw [defCount, List.countP_eq_zero]
  intro l hl
  cases l with
  | nodeDef i b =>
      intro hcon
      have hin : i = n := of_decide_eq_true hcon
      exact h (hin ▸ List.mem_filterMap.mpr ⟨.nodeDef i b, hl, rfl⟩)
  | edge s t b => intro hcon; cases hcon
  | blank => intro hcon; cases hcon
  | text s => intro hcon; cases hcon

theorem adds_count_le_one (adds : List String) (hnd : adds.Nodup) (n : String) :
    adds.countP (fun x => decide (x ++ "_filtered" = n)) ≤ 1 := by
  induction adds with
  | nil => simp
  | cons x rest ih =>
      have hnd' := List.nodup_cons.mp hnd
      rw [List.countP_cons]
      by_cases hp : x ++ "_filtered" = n
      · have hz : rest.countP (fun y => decide (y ++ "_filtered" = n)) = 0 := by
          rw [List.countP_eq_zero]
          intro y hy hcon
          have h1 : y ++ "_filtered" = n := of_decide_eq_true hcon
          have h2 : y = x := by
            have h3 : y ++ "_filtered" = x ++ "_filtered" := by rw [h1, hp]
            have h4 := congrArg String.data h3
            simp only [String.data_append] at h4
            exact String.ext (List.append_cancel_right h4)
          exact hnd'.1 (h2 ▸ hy)
        simp [hz, hp]
      · rw [if_neg (by simp [hp])]
        simpa using ih hnd'.2

theorem flatMapAdds_defCount : ∀ (adds : List String) (n : String),
    defCount (adds.flatMap fun x => [_make_filtered_node_line x, DotLine.blank])
        n =
      adds.countP fun x => decide (x ++ "_filtered" = n) := by
  intro adds n
  induction adds with
  | nil => rfl
  | cons x rest ih =>
      simp only [List.flatMap_cons, defCount] at *
      rw [List.countP_append, List.countP_cons, ih]
      by_cases hp : x ++ "_filtered" = n
      · simp [_make_filtered_node_line, List.countP_cons, hp, Nat.add_comm]
      · simp [_make_filtered_node_line, List.countP_cons, hp, Nat.add_comm]

theorem prune_defCount_le (exclude : List String) (v : List DotLine)
    (n : String) :
    defCount (prune_and_connect_filtered_nodes exclude v) n ≤ defCount v n := by
  cases hexb : exclude.isEmpty with
  | true => rw [prune_eq_of_empty_exclude exclude v hexb]
  | false =>
  cases hfne : (filteredNodes v).isEmpty with
  | true => rw [prune_eq_of_no_filtered exclude v hfne]
  | false =>
    rw [prune_run v exclude hexb hfne]
    simp only [defCount, collapse_excess_blank_lines]
    refine le_trans ((collapseGo_sublist _ false).countP_le _) ?_
    split
    · exact (List.filter_sublist v).countP_le _
    · refine le_trans (insertBeforeLastBrace_countP _ _ _) ?_
      have hz : List.countP
          (fun l => match l with
            | DotLine.nodeDef i _ => decide (i = n)
            | _ => false)
          (DotLine.blank :: (indirectEdges v).flatMap
            fun e => [indirectEdgeLine e, DotLine.blank]) = 0 := by
        rw [List.countP_eq_zero]
        intro l hl
        rcases List.mem_cons.mp hl with h | h
        · subst h; intro hcon; cases hcon
        · rcases List.mem_flatMap.mp h with ⟨e, he, hmem⟩
          rcases List.mem_cons.mp hmem with h2 | h2
          · subst h2; intro hcon; cases hcon
          · simp only [List.mem_singleton] at h2
            subst h2
            intro hcon; cases hcon
      rw [hz]
      have := (List.filter_sublist (l := v)
        (p := fun l => match l with
          | DotLine.edge s t _ =>
              !(decide (s ∈ purgedNodes v) || decide (t ∈ purgedNodes v))
          | DotLine.nodeDef i _ => !decide (i ∈ purgedNodes v)
          | _ => true)).countP_le
        (fun l => match l with
          | DotLine.nodeDef i _ => decide (i = n)
          | _ => false)
      simpa [pruneBase] using this

end TheSu

namespace TheSu

theorem redirect_defCount_le (exclude : List String)
    (anc : String → List String) (lines : List DotLine)
    (huniq : ∀ n ∈ definedNodes lines, defCount lines n ≤ 1)
    (hfresh : ∀ x ∈ exclude, (x ++ "_filtered") ∉ definedNodes lines) :
    ∀ n, defCount (redirect_or_remove_invalid_edges exclude anc lines) n ≤ 1 := by
  intro n
  have hlines : defCount lines n ≤ 1 := by
    by_cases hmem : n ∈ definedNodes lines
    · exact huniq n hmem
    · rw [defCount_zero_of_not_defined lines n hmem]
      omega
  have hbase : defCount
      (lines.filterMap (validateEdge exclude anc (definedNodesD lines))) n ≤ 1 := by
    rw [validate_defCount]
    exact hlines
  simp only [redirect_or_remove_invalid_edges]
  split
  · exact hbase
  · have hins := insertBeforeLastBrace_countP
      (fun l => match l with
        | DotLine.nodeDef i _ => decide (i = n)
        | _ => false)
      (lines.filterMap (validateEdge exclude anc (definedNodesD lines)))
      (DotLine.blank :: (collectAdds exclude anc (definedNodesD lines)
          lines).flatMap fun x => [_make_filtered_node_line x, DotLine.blank])
    have hadds : defCount
        (DotLine.blank :: (collectAdds exclude anc (definedNodesD lines)
          lines).flatMap fun x => [_make_filtered_node_line x, DotLine.blank])
        n =
        (collectAdds exclude anc (definedNodesD lines) lines).countP
          fun x => decide (x ++ "_filtered" = n) := by
      show defCount _ n = _
      rw [defCount, List.countP_cons]
      have := flatMapAdds_defCount
        (collectAdds exclude anc (definedNodesD lines) lines) n
      rw [defCount] at this
      rw [this]
      simp
    rcases Nat.eq_zero_or_pos ((collectAdds exclude anc (definedNodesD lines)
        lines).countP fun x => decide (x ++ "_filtered" = n)) with hz | hpos
    · show defCount _ n ≤ 1
      rw [defCount]
      refine le_trans hins ?_
      rw [defCount] at hbase hadds
      omega
    · rcases List.countP_pos_iff.mp hpos with ⟨x, hxadds, hxp⟩
      have hxf : x ++ "_filtered" = n := of_decide_eq_true hxp
      have hx_ex := (adds_subset exclude anc (definedNodesD lines) lines
        x hxadds).1
      have hnotdef : n ∉ definedNodes lines := hxf ▸ hfresh x hx_ex
      have hbase0 : defCount
          (lines.filterMap (validateEdge exclude anc (definedNodesD lines)))
          n = 0 := by
        rw [validate_defCount]
        exact defCount_zero_of_not_defined lines n hnotdef
      have hcle := adds_count_le_one
        (collectAdds exclude anc (definedNodesD lines) lines)
        (List.nodup_dedup _) n
      show defCount _ n ≤ 1
      rw [defCount]
      refine le_trans hins ?_
      rw [defCount] at hbase0 hadds
      omega

theorem pipeline_defCount_le (exclude : List String)
    (anc : String → List String) (lines : List DotLine)
    (huniq : ∀ n ∈ definedNodes lines, defCount lines n ≤ 1)
    (hfresh : ∀ x ∈ exclude, (x ++ "_filtered") ∉ definedNodes lines) :
    ∀ n, defCount (pipeline_output exclude anc lines) n ≤ 1 := by
  intro n
  have h1 := redirect_defCount_le exclude anc lines huniq hfresh n
  have h2 := prune_defCount_le exclude
    (redirect_or_remove_invalid_edges exclude anc lines) n
  have h3 : defCount (pipeline_output exclude anc lines) n ≤
      defCount (prune_and_connect_filtered_nodes exclude
        (redirect_or_remove_invalid_edges exclude anc lines)) n := by
    rw [pipeline_output, defCount, defCount]
    exact (dedupGoD_sublist _ []).countP_le _
  omega

end TheSu

namespace TheSu

/-- **C1.** After the content-rewriting pipeline — edge
validation/redirection, exclusion pruning, deduplication (line-break
normalization only rearranges blank lines) — every edge surviving in the
output has both endpoint ids defined by exactly one node-definition line of
the same output.  Hypotheses: the input has a closing brace line (so
substituted pseudo-node definitions can be inserted), each id has at most
one definition line, the `{id}_filtered` ids of excluded elements are not
already defined, and no defined id after validation is simultaneously
filtered-named and mediator-named. -/
theorem C1_edge_closure (lines : List DotLine) (exclude : List String)
    (anc : String → List String)
    (hbr : ∃ l ∈ lines, isCloseBrace l = true)
    (huniq : ∀ n ∈ definedNodes lines, defCount lines n ≤ 1)
    (hfresh : ∀ x ∈ exclude, (x ++ "_filtered") ∉ definedNodes lines)
    (hnoamb : ∀ m ∈ definedNodesD
        (redirect_or_remove_invalid_edges exclude anc lines),
      ¬(strEnds m "_filtered" = true ∧ is_mediator_node m = true)) :
    ∀ s t a, DotLine.edge s t a ∈ pipeline_output exclude anc lines →
      defCount (pipeline_output exclude anc lines) s = 1 ∧
      defCount (pipeline_output exclude anc lines) t = 1 := by
  intro s t a hx
  have hcl : EdgeClosed (pipeline_output exclude anc lines) :=
    dedup_closed _
      (prune_closed exclude _ hnoamb (redirect_closed exclude anc lines hbr))
  have hle := pipeline_defCount_le exclude anc lines huniq hfresh
  rcases hcl s t a hx with ⟨⟨bs, hbs⟩, ⟨bt, hbt⟩⟩
  constructor
  · have hpos : 0 < defCount (pipeline_output exclude anc lines) s := by
      rw [defCount]
      exact List.countP_pos_iff.mpr ⟨.nodeDef s bs, hbs, by simp⟩
    have := hle s
    omega
  · have hpos : 0 < defCount (pipeline_output exclude anc lines) t := by
      rw [defCount]
      exact List.countP_pos_iff.mpr ⟨.nodeDef t bt, hbt, by simp⟩
    have := hle t
    omega

/-- A file whose only edge references the excluded, undefined id `X1`. -/
def c1Lines : List DotLine :=
  [.text "digraph \x7b", .nodeDef "r" "label=r", .edge "r" "X1" "", .text "\x7d"]

theorem C1_edge_closure_witness :
    DotLine.edge "r" "X1_filtered" "" ∈
      pipeline_output ["X1"] (fun _ => []) c1Lines ∧
    defCount (pipeline_output ["X1"] (fun _ => []) c1Lines) "r" = 1 ∧
    defCount (pipeline_output ["X1"] (fun _ => []) c1Lines) "X1_filtered" = 1 :=
  ⟨by decide,
   (C1_edge_closure c1Lines ["X1"] (fun _ => []) (by decide) (by decide)
      (by decide) (by decide) "r" "X1_filtered" "" (by decide)).1,
   (C1_edge_closure c1Lines ["X1"] (fun _ => []) (by decide) (by decide)
      (by decide) (by decide) "r" "X1_filtered" "" (by decide)).2⟩

end TheSu
